import Mathlib

/-!
Verification of the UDS deduplication-index core (delta-index codec and
store, index zone coordination, chapter writer) against its specification.

The definitions below are shallow embeddings of the C sources:
  * `uds/delta-index.c` — the delta codec, the mutable delta zone
    (insert/remove/rebalance) and the immutable delta index page;
  * `index.c` — the request pipeline (`search_index_zone`), the chapter
    writer (`close_chapters`) and the zone chapter-close protocol.

Bit streams are modelled as functions `Nat → Bool`, where bit `i` of byte
`b` has index `8*b + i`; this matches the little-endian bit numbering that
the C code documents and implements with `get_unaligned_le32`/`le64`.
Machine integers are modelled as `Nat` with explicit bounds or `% 2^w`
where overflow matters.
-/

namespace UDS

/-- UDS status codes (from `errors.h`): the subset that the embedded
functions can produce. `assertionFailed` stands for the error value that a
failed `ASSERT` returns. -/
inductive Status where
  | success
  | overflow
  | corruptData
  | badState
  | duplicateName
  | invalidArgument
  | queued
  | assertionFailed
  | ioError
  deriving DecidableEq, Repr

/-! ## Bit-addressable memory

The delta lists are bit streams stored little-endian: within a byte, bit 0
is the least significant bit; within a stream, bit 8 is the least
significant bit of byte 1 (comment at the head of `delta-index.c`).
Memory is a total function from bit index to bit value. -/

/-- Bit-addressable memory. -/
def Mem : Type := Nat → Bool

/-- Read `size` bits starting at bit offset `off`, least significant
first. This is the abstract effect of `get_field` / `get_big_field`
(`delta-index.c`, which read a little-endian word and shift/mask). -/
def getBits (m : Mem) : Nat → Nat → Nat
  | _, 0 => 0
  | off, size + 1 => (cond (m off) 1 0) + 2 * getBits m (off + 1) size

/-- Write the low `size` bits of `value` at bit offset `off`, leaving all
other bits unchanged. This is the effect of `set_field` / `set_big_field`
(`delta-index.c`); the C callers always pass `value < 2^size`, which makes
the read-modify-write word operation coincide with this window update. -/
def setBits (value : Nat) (m : Mem) (off size : Nat) : Mem :=
  fun i => if off ≤ i ∧ i < off + size then value.testBit (i - off) else m i

/-- Set `size` bits to zero starting at bit offset `off`
(`set_zero` in `delta-index.c`). -/
def setZero (m : Mem) (off size : Nat) : Mem :=
  fun i => if off ≤ i ∧ i < off + size then false else m i

/-- Move `size` bits from offset `fromOff` to offset `toOff`. The source
documents the contract of `move_bits`: "When the fields overlap, behave as
if we first move all the bits from the source to a temporary value, and
then move all the bits from the temporary value to the destination"
(`delta-index.c`); `move_bits_down` / `move_bits_up` implement it. -/
def moveBits (m : Mem) (fromOff toOff size : Nat) : Mem :=
  fun i => if toOff ≤ i ∧ i < toOff + size then m (fromOff + (i - toOff)) else m i

theorem getBits_congr {m1 m2 : Mem} {off size : Nat}
    (h : ∀ i, i < size → m1 (off + i) = m2 (off + i)) :
    getBits m1 off size = getBits m2 off size := by
  induction size generalizing off with
  | zero => rfl
  | succ s ih =>
    have h0 : m1 off = m2 off := by simpa using h 0 (Nat.succ_pos s)
    have hrest : ∀ i, i < s → m1 (off + 1 + i) = m2 (off + 1 + i) := by
      intro i hi
      have := h (i + 1) (by omega)
      simpa [Nat.add_assoc, Nat.add_comm 1 i] using this
    simp [getBits, h0, ih hrest]

theorem getBits_eq_of_testBit {m : Mem} {off size v : Nat}
    (h : ∀ i, i < size → m (off + i) = v.testBit i) :
    getBits m off size = v % 2 ^ size := by
  induction size generalizing off v with
  | zero => simp [getBits, Nat.mod_one]
  | succ s ih =>
    have h0 : m off = v.testBit 0 := by simpa using h 0 (Nat.succ_pos s)
    have hrest : ∀ i, i < s → m (off + 1 + i) = (v / 2).testBit i := by
      intro i hi
      have := h (i + 1) (by omega)
      rw [Nat.testBit_add_one] at this
      simpa [Nat.add_assoc, Nat.add_comm 1 i] using this
    have hv : v % 2 ^ (s + 1) = v % 2 + 2 * (v / 2 % 2 ^ s) := by
      rw [pow_succ, Nat.mul_comm, Nat.mod_mul]
    have hc : (cond (v.testBit 0) 1 0 : Nat) = v % 2 := by
      rcases Nat.mod_two_eq_zero_or_one v with h2 | h2 <;>
        simp [Nat.testBit_zero, h2]
    rw [getBits, h0, ih hrest, hv, hc]

theorem setBits_in {value : Nat} {m : Mem} {off size i : Nat}
    (h : i < size) : setBits value m off size (off + i) = value.testBit i := by
  simp [setBits, h]

theorem setBits_out {value : Nat} {m : Mem} {off size j : Nat}
    (h : j < off ∨ off + size ≤ j) : setBits value m off size j = m j := by
  rcases h with h | h <;> simp [setBits] <;> omega

theorem setZero_in {m : Mem} {off size i : Nat}
    (h : i < size) : setZero m off size (off + i) = false := by
  simp [setZero, h]

theorem setZero_out {m : Mem} {off size j : Nat}
    (h : j < off ∨ off + size ≤ j) : setZero m off size j = m j := by
  rcases h with h | h <;> simp [setZero] <;> omega

theorem moveBits_in {m : Mem} {fromOff toOff size i : Nat}
    (h : i < size) : moveBits m fromOff toOff size (toOff + i) = m (fromOff + i) := by
  simp [moveBits, h]

theorem moveBits_out {m : Mem} {fromOff toOff size j : Nat}
    (h : j < toOff ∨ toOff + size ≤ j) : moveBits m fromOff toOff size j = m j := by
  rcases h with h | h <;> simp [moveBits] <;> omega

theorem moveBits_zero (m : Mem) (fromOff toOff : Nat) :
    moveBits m fromOff toOff 0 = m := by
  funext i
  simp [moveBits]

/-- Reading a window that was just written returns the written value
(when it fits in the window). -/
theorem getBits_setBits {value : Nat} {m : Mem} {off size : Nat}
    (h : value < 2 ^ size) :
    getBits (setBits value m off size) off size = value := by
  have := @getBits_eq_of_testBit (setBits value m off size) off size value
    (fun i hi => setBits_in hi)
  rwa [Nat.mod_eq_of_lt h] at this

/-! ## Huffman coding parameters

`compute_coding_constants` (`delta-index.c`) derives the three
parameters of the delta code from the mean delta. -/

/-- The coding parameters of a delta zone: `MINBITS`, `BASE` and `INCR`
in the terminology of the long comment at the top of `delta-index.c`. -/
structure CodingConstants where
  minBits : Nat
  minKeys : Nat
  incrKeys : Nat
  deriving DecidableEq, Repr

/-- The kernel `bits_per(n)` (`linux/log2.h`): the number of bits needed
to represent `n`, i.e. `⌊log₂ n⌋ + 1` for `n ≥ 1`, and `1` for `n = 0`. -/
def bitsPer (n : Nat) : Nat := Nat.log2 n + 1

/-- `compute_coding_constants` (`delta-index.c` lines 340-352):
`incr_keys` is the integer approximation of `round(log(2) * mean_delta)`,
`min_bits = bits_per(incr_keys + 1)`, and
`min_keys = (1 << min_bits) - incr_keys`. -/
def computeCodingConstants (meanDelta : Nat) : CodingConstants :=
  let incrKeys := (836158 * meanDelta + 603160) / 1206321
  let minBits := bitsPer (incrKeys + 1)
  let minKeys := 2 ^ minBits - incrKeys
  ⟨minBits, minKeys, incrKeys⟩

theorem incrKeys_lt_pow_minBits (meanDelta : Nat) :
    (computeCodingConstants meanDelta).incrKeys + 1 <
      2 ^ (computeCodingConstants meanDelta).minBits := by
  set i := (836158 * meanDelta + 603160) / 1206321 with hi
  show i + 1 < 2 ^ bitsPer (i + 1)
  have h2 : (1 : Nat) < 2 := by norm_num
  have := Nat.lt_pow_succ_log_self h2 (i + 1)
  simpa [bitsPer, Nat.log2_eq_log_two, Nat.succ_eq_add_one] using this

/-- The constants always satisfy `BASE + INCR = 1 << MINBITS`
(the defining identity documented in `delta-index.c`). -/
theorem computeCodingConstants_sum (meanDelta : Nat) :
    (computeCodingConstants meanDelta).minKeys +
      (computeCodingConstants meanDelta).incrKeys =
      2 ^ (computeCodingConstants meanDelta).minBits := by
  have h := incrKeys_lt_pow_minBits meanDelta
  show 2 ^ (computeCodingConstants meanDelta).minBits -
      (computeCodingConstants meanDelta).incrKeys +
      (computeCodingConstants meanDelta).incrKeys = _
  omega

/-- A mean delta of at least 1 produces `incr_keys ≥ 1`. -/
theorem one_le_incrKeys {meanDelta : Nat} (h : 1 ≤ meanDelta) :
    1 ≤ (computeCodingConstants meanDelta).incrKeys := by
  show 1 ≤ (836158 * meanDelta + 603160) / 1206321
  have : 1206321 ≤ 836158 * meanDelta + 603160 := by nlinarith
  exact Nat.le_div_iff_mul_le (by norm_num) |>.mpr (by omega)

/-- `min_bits` is always at least 1. -/
theorem one_le_minBits (meanDelta : Nat) :
    1 ≤ (computeCodingConstants meanDelta).minBits := by
  show 1 ≤ bitsPer _
  simp [bitsPer]

/-- `bits_per` unfolded: the equation holds by definition at a generic
argument. -/
theorem bitsPer_log2 (n : Nat) : bitsPer n = Nat.log2 n + 1 := rfl

/-- `compute_coding_constants` unfolded at a generic mean delta. -/
theorem computeCodingConstants_expand (meanDelta : Nat) :
    computeCodingConstants meanDelta =
      ⟨bitsPer ((836158 * meanDelta + 603160) / 1206321 + 1),
        2 ^ bitsPer ((836158 * meanDelta + 603160) / 1206321 + 1) -
          (836158 * meanDelta + 603160) / 1206321,
        (836158 * meanDelta + 603160) / 1206321⟩ := rfl

/-- Helper: the concrete constants produced for mean delta 4:
`incr_keys = 3`, `min_bits = bits_per 4 = 3`, `min_keys = 8 - 3 = 5`. -/
theorem computeCodingConstants_four : computeCodingConstants 4 = ⟨3, 5, 3⟩ := by
  have hdiv : (836158 * 4 + 603160) / 1206321 = 3 := by norm_num
  have hlog : Nat.log2 4 = 2 := by
    rw [Nat.log2_eq_log_two, show (4 : Nat) = 2 ^ 2 by norm_num,
      Nat.log_pow (by norm_num)]
  rw [computeCodingConstants_expand, hdiv, bitsPer_log2,
    show (3 + 1 : Nat) = 4 from rfl, hlog]
  decide

/-- Helper: the concrete constants produced for mean delta 1024:
`incr_keys = 710`, `min_bits = bits_per 711 = 10`, `min_keys = 314`. -/
theorem computeCodingConstants_1024 : computeCodingConstants 1024 = ⟨10, 314, 710⟩ := by
  have hdiv : (836158 * 1024 + 603160) / 1206321 = 710 := by norm_num
  have hlog : Nat.log2 711 = 9 := by
    rw [Nat.log2_eq_log_two]
    exact Nat.log_eq_of_pow_le_of_lt_pow (by norm_num) (by norm_num)
  rw [computeCodingConstants_expand, hdiv, bitsPer_log2,
    show (710 + 1 : Nat) = 711 from rfl, hlog]
  decide

/-! ## Claim C9: coding-constant derivation -/

/-- C9 (counterexample): the claim states
`min_bits = ⌈log₂(incr_keys + 1)⌉`. For mean delta 4 the code computes
`incr_keys = 3` and `min_bits = bits_per(4) = 3`, while
`⌈log₂ 4⌉ = 2`: the claimed formula fails whenever `incr_keys + 1` is a
power of two. -/
theorem C9_counterexample :
    ¬ ((computeCodingConstants 4).minBits =
        Nat.clog 2 ((computeCodingConstants 4).incrKeys + 1)) := by
  rw [computeCodingConstants_four]
  show ¬ (3 = Nat.clog 2 (3 + 1))
  rw [show (3 + 1 : Nat) = 2 ^ 2 by norm_num, Nat.clog_pow 2 2 (by norm_num)]
  norm_num

/-- C9 (amended): for every mean delta, `compute_coding_constants`
produces `incr_keys = (836158·mean_delta + 603160) / 1206321` (the
integer approximation of `round(ln2 · mean_delta)`),
`min_bits = ⌊log₂(incr_keys + 1)⌋ + 1` (the kernel `bits_per`, which
exceeds `⌈log₂(incr_keys + 1)⌉` exactly when `incr_keys + 1` is a power
of two), and `min_keys = 2^min_bits − incr_keys`, so that
`min_keys + incr_keys = 2^min_bits`. -/
theorem C9_coding_constants (meanDelta : Nat) :
    (computeCodingConstants meanDelta).incrKeys =
        (836158 * meanDelta + 603160) / 1206321 ∧
    (computeCodingConstants meanDelta).minBits =
        Nat.log2 ((computeCodingConstants meanDelta).incrKeys + 1) + 1 ∧
    (computeCodingConstants meanDelta).minKeys =
        2 ^ (computeCodingConstants meanDelta).minBits -
          (computeCodingConstants meanDelta).incrKeys ∧
    (computeCodingConstants meanDelta).minKeys +
        (computeCodingConstants meanDelta).incrKeys =
        2 ^ (computeCodingConstants meanDelta).minBits := by
  refine ⟨rfl, rfl, rfl, computeCodingConstants_sum meanDelta⟩

/-! ## The delta codec

`encode_delta` and `decode_delta` (`delta-index.c`). The pseudocode is
documented in the long comment at the top of the file (ENCODE/DECODE);
`decode_delta` implements the bit scan with word reads, which the bit
model below expresses directly. -/

/-- Count the zero bits before the first one bit at or after `off`.
`decode_delta` performs this scan; it is bounded in the C code by the
all-ones tail guard list, which the explicit `fuel` models. -/
def countZeros (m : Mem) : Nat → Nat → Option Nat
  | _, 0 => none
  | off, fuel + 1 =>
    if m off then some 0 else (countZeros m (off + 1) fuel).map (· + 1)

/-- `decode_delta` (`delta-index.c` lines 1511-1548), restricted to the
delta code itself (the caller adds `value_bits` to the offset). Returns
the decoded delta together with the number of key bits consumed
(`key_bits`), or `none` if the zero scan exhausts its fuel. -/
def decodeDeltaCode (c : CodingConstants) (m : Mem) (off fuel : Nat) :
    Option (Nat × Nat) :=
  let t1 := getBits m off c.minBits
  if t1 < c.minKeys then some (t1, c.minBits)
  else (countZeros m (off + c.minBits) fuel).map
    fun t2 => (t1 + t2 * c.incrKeys, c.minBits + t2 + 1)

/-- `encode_delta` (`delta-index.c` lines 1866-1887), restricted to the
delta code itself: a delta below `min_keys` is stored in `min_bits` bits;
otherwise `(delta - min_keys) % incr_keys + min_keys` is stored in
`min_bits` bits, followed by `(delta - min_keys) / incr_keys` zero bits
and a single one bit. -/
def encodeDelta (c : CodingConstants) (delta : Nat) (m : Mem) (off : Nat) : Mem :=
  if delta < c.minKeys then setBits delta m off c.minBits
  else
    let temp := delta - c.minKeys
    let t1 := temp % c.incrKeys + c.minKeys
    let t2 := temp / c.incrKeys
    setBits 1 (setZero (setBits t1 m off c.minBits) (off + c.minBits) t2)
      (off + c.minBits + t2) 1

/-- The number of key bits of the encoded form of `delta`: `min_bits`
below `min_keys`, otherwise `min_bits + (delta - min_keys)/incr_keys + 1`.
This matches both what `encode_delta` writes and what `decode_delta`
reads back. -/
def deltaCodeLength (c : CodingConstants) (delta : Nat) : Nat :=
  if delta < c.minKeys then c.minBits
  else c.minBits + (delta - c.minKeys) / c.incrKeys + 1

/-- `set_delta` (`delta-index.c` lines 1605-1615) computes the key bits
as `min_bits + (incr_keys - min_keys + delta) / incr_keys` in unsigned
arithmetic; the translation below is valid on the no-wraparound domain
`min_keys ≤ incr_keys + delta`, which the accompanying theorems
hypothesise. -/
def setDeltaKeyBits (c : CodingConstants) (delta : Nat) : Nat :=
  c.minBits + (c.incrKeys + delta - c.minKeys) / c.incrKeys

theorem setDeltaKeyBits_eq_deltaCodeLength {c : CodingConstants} {delta : Nat}
    (hincr : 1 ≤ c.incrKeys) (hnowrap : c.minKeys ≤ c.incrKeys + delta) :
    setDeltaKeyBits c delta = deltaCodeLength c delta := by
  unfold setDeltaKeyBits deltaCodeLength
  by_cases h : delta < c.minKeys
  · have hlt : c.incrKeys + delta - c.minKeys < c.incrKeys := by omega
    rw [Nat.div_eq_of_lt hlt, if_pos h]
    omega
  · have heq : c.incrKeys + delta - c.minKeys = delta - c.minKeys + c.incrKeys := by
      omega
    rw [if_neg h, heq, Nat.add_div_right _ (by omega)]
    omega

theorem countZeros_spec {m : Mem} {off z fuel : Nat}
    (hz : ∀ i, i < z → m (off + i) = false) (hone : m (off + z) = true)
    (hf : z < fuel) : countZeros m off fuel = some z := by
  induction z generalizing off fuel with
  | zero =>
    cases fuel with
    | zero => omega
    | succ f =>
      have : m off = true := by simpa using hone
      simp [countZeros, this]
  | succ z ih =>
    cases fuel with
    | zero => omega
    | succ f =>
      have h0 : m off = false := by simpa using hz 0 (Nat.succ_pos z)
      have hz2 : ∀ i, i < z → m (off + 1 + i) = false := by
        intro i hi
        have := hz (i + 1) (by omega)
        simpa [Nat.add_assoc, Nat.add_comm 1 i] using this
      have hone2 : m (off + 1 + z) = true := by
        have : off + 1 + z = off + (z + 1) := by omega
        rw [this]
        exact hone
      have hrec : countZeros m (off + 1) f = some z := ih hz2 hone2 (by omega)
      simp [countZeros, h0, hrec]

/-- Round trip of the delta code: decoding what `encode_delta` wrote at
the same bit offset recovers the delta, together with the exact number of
key bits. -/
theorem decode_encode {c : CodingConstants} (m : Mem) (off delta fuel : Nat)
    (hsum : c.minKeys + c.incrKeys = 2 ^ c.minBits)
    (hincr : 1 ≤ c.incrKeys)
    (hfuel : (delta - c.minKeys) / c.incrKeys < fuel) :
    decodeDeltaCode c (encodeDelta c delta m off) off fuel =
      some (delta, deltaCodeLength c delta) := by
  by_cases h : delta < c.minKeys
  · have hpow : delta < 2 ^ c.minBits := by omega
    unfold encodeDelta decodeDeltaCode deltaCodeLength
    rw [if_pos h]
    rw [getBits_setBits hpow]
    rw [if_pos h, if_pos h]
  · have hd : c.minKeys ≤ delta := by omega
    set temp := delta - c.minKeys with htemp
    set t1 := temp % c.incrKeys + c.minKeys with ht1
    set t2 := temp / c.incrKeys with ht2
    have ht1pow : t1 < 2 ^ c.minBits := by
      have : temp % c.incrKeys < c.incrKeys := Nat.mod_lt _ (by omega)
      omega
    have ht1ge : ¬ (t1 < c.minKeys) := by omega
    set m1 : Mem := setBits t1 m off c.minBits with hm1
    set m2 : Mem := setZero m1 (off + c.minBits) t2 with hm2
    set m3 : Mem := setBits 1 m2 (off + c.minBits + t2) 1 with hm3
    have henc : encodeDelta c delta m off = m3 := by
      unfold encodeDelta
      rw [if_neg h]
    have hread : getBits m3 off c.minBits = t1 := by
      have e32 : ∀ i, i < c.minBits → m3 (off + i) = m2 (off + i) := by
        intro i hi
        apply setBits_out
        left
        exact Nat.lt_of_lt_of_le (by omega) (Nat.le_add_right (off + c.minBits) t2)
      have e21 : ∀ i, i < c.minBits → m2 (off + i) = m1 (off + i) := by
        intro i hi
        apply setZero_out
        left
        omega
      calc getBits m3 off c.minBits
          = getBits m2 off c.minBits := getBits_congr e32
        _ = getBits m1 off c.minBits := getBits_congr e21
        _ = t1 := getBits_setBits ht1pow
    have hscan : countZeros m3 (off + c.minBits) fuel = some t2 := by
      apply countZeros_spec
      · intro i hi
        have h3 : m3 (off + c.minBits + i) = m2 (off + c.minBits + i) := by
          apply setBits_out
          left
          omega
        rw [h3, hm2]
        exact setZero_in hi
      · have : m3 (off + c.minBits + t2) = (1 : Nat).testBit 0 := by
          have := @setBits_in 1 m2 (off + c.minBits + t2) 1 0 (by omega)
          simpa using this
        simpa using this
      · exact hfuel
    unfold decodeDeltaCode
    rw [henc, hread, if_neg ht1ge, hscan]
    have hval : t1 + t2 * c.incrKeys = delta := by
      have hmd := Nat.mod_add_div temp c.incrKeys
      rw [← ht2] at hmd
      have hcm : t2 * c.incrKeys = c.incrKeys * t2 := Nat.mul_comm _ _
      omega
    have hlen : c.minBits + t2 + 1 = deltaCodeLength c delta := by
      unfold deltaCodeLength
      rw [if_neg h]
    show some (t1 + t2 * c.incrKeys, c.minBits + t2 + 1) =
      some (delta, deltaCodeLength c delta)
    rw [hval, hlen]

/-! ## Claim C1: delta codec round trip and entry size -/

/-- C1 (counterexample): with the coding constants for mean delta 4
(`min_bits = 3`, `min_keys = 5`, `incr_keys = 3`) and `delta = min_keys
= 5`, the encoded delta decodes back with 4 key bits (one trailing one
bit follows the `min_bits` field), so with 8 payload bits the entry
occupies `8 + 4 = 12` bits, while the claimed total
`value_bits + min_bits + ⌈(delta − min_keys)/incr_keys⌉ = 8 + 3 + 0 = 11`
is wrong: the claim's ceiling formula is off by one whenever `incr_keys`
divides `delta − min_keys`. -/
theorem C1_counterexample :
    computeCodingConstants 4 = ⟨3, 5, 3⟩ ∧
    decodeDeltaCode ⟨3, 5, 3⟩ (encodeDelta ⟨3, 5, 3⟩ 5 (fun _ => false) 0) 0 1 =
      some (5, 4) ∧
    ¬ (8 + 4 = 8 + 3 + (5 - 5 + 3 - 1) / 3) :=
  ⟨computeCodingConstants_four, by decide, by decide⟩

/-- C1 (amended): for coding constants derived from any valid mean delta
(at least 1) and every delta up to 10⁶, decoding the bit stream produced
by encoding the delta at the same bit offset yields the same delta, and
the total entry bits equal `value_bits + min_bits` when
`delta < min_keys`, and
`value_bits + min_bits + (delta − min_keys)/incr_keys + 1` (one more than
the claimed ceiling whenever `incr_keys` divides `delta − min_keys`) when
`delta ≥ min_keys`. -/
theorem C1_delta_codec (meanDelta delta valueBits fuel : Nat) (m : Mem) (off : Nat)
    (hmd : 1 ≤ meanDelta) (hdelta : delta ≤ 1000000)
    (hfuel : (delta - (computeCodingConstants meanDelta).minKeys) /
        (computeCodingConstants meanDelta).incrKeys < fuel) :
    decodeDeltaCode (computeCodingConstants meanDelta)
        (encodeDelta (computeCodingConstants meanDelta) delta m off) off fuel =
      some (delta, deltaCodeLength (computeCodingConstants meanDelta) delta) ∧
    (delta < (computeCodingConstants meanDelta).minKeys →
      valueBits + deltaCodeLength (computeCodingConstants meanDelta) delta =
        valueBits + (computeCodingConstants meanDelta).minBits) ∧
    ((computeCodingConstants meanDelta).minKeys ≤ delta →
      valueBits + deltaCodeLength (computeCodingConstants meanDelta) delta =
        valueBits + (computeCodingConstants meanDelta).minBits +
          (delta - (computeCodingConstants meanDelta).minKeys) /
            (computeCodingConstants meanDelta).incrKeys + 1) := by
  refine ⟨decode_encode m off delta fuel (computeCodingConstants_sum meanDelta)
    (one_le_incrKeys hmd) hfuel, ?_, ?_⟩
  · intro h
    unfold deltaCodeLength
    rw [if_pos h]
  · intro h
    unfold deltaCodeLength
    rw [if_neg (by omega)]
    omega

/-- C1 (witness): the amended codec theorem applied at mean delta 1024
(constants `min_bits = 10`, `min_keys = 314`, `incr_keys = 710`),
delta 1000, 8 payload bits, offset 3. -/
theorem C1_witness :
    decodeDeltaCode (computeCodingConstants 1024)
        (encodeDelta (computeCodingConstants 1024) 1000 (fun _ => false) 3) 3 2 =
      some (1000, deltaCodeLength (computeCodingConstants 1024) 1000) ∧
    ((computeCodingConstants 1024).minKeys ≤ 1000 →
      8 + deltaCodeLength (computeCodingConstants 1024) 1000 =
        8 + (computeCodingConstants 1024).minBits +
          (1000 - (computeCodingConstants 1024).minKeys) /
            (computeCodingConstants 1024).incrKeys + 1) := by
  have h := C1_delta_codec 1024 1000 8 2 (fun _ => false) 3 (by norm_num)
    (by norm_num) (by rw [computeCodingConstants_1024]; norm_num)
  exact ⟨h.1, h.2.2⟩

/-! ## Claim C10: `write_guard_delta_list` -/

/-- The guard save record written by `write_guard_delta_list`
(`delta-index.c` lines 1388-1401): a zeroed `delta_list_save_info`
structure (8 bytes) whose tag byte is `'z'` (ASCII 122). -/
def guardSaveRecord : List Nat := 122 :: List.replicate 7 0

/-- `write_guard_delta_list` (`delta-index.c` lines 1388-1401), with the
buffered writer abstracted as a function from the written bytes to a
status. Returns the function result together with whether a warning was
logged. The C function logs a warning when the write fails but always
returns `UDS_SUCCESS`. -/
def writeGuardDeltaList (write : List Nat → Status) : Status × Bool :=
  let result := write guardSaveRecord
  (Status.success, if result = Status.success then false else true)

/-- C10: `write_guard_delta_list` always returns `UDS_SUCCESS`, even when
writing the sentinel save record (tag `'z'`) fails; a failed write only
produces a logged warning, so the caller cannot detect it from the return
value. -/
theorem C10_write_guard_always_succeeds (write : List Nat → Status) :
    (writeGuardDeltaList write).1 = Status.success ∧
    ((writeGuardDeltaList write).2 = true ↔ write guardSaveRecord ≠ Status.success) := by
  constructor
  · rfl
  · show (if write guardSaveRecord = Status.success then false else true) = true ↔ _
    by_cases h : write guardSaveRecord = Status.success <;> simp [h]

/-! ## The immutable delta index page

`verify_delta_index_page` and `initialize_delta_index_page`
(`delta-index.c` lines 518-641). The page is a byte array; reads take
each byte modulo 256 so that the model is total. -/

/-- A page of bytes. -/
def PageMem : Type := Nat → Nat

/-- Read one byte. -/
def readByte (m : PageMem) (addr : Nat) : Nat := m addr % 256

/-- `get_unaligned_leN`: read `n` bytes little-endian. -/
def readLE (m : PageMem) : Nat → Nat → Nat
  | _, 0 => 0
  | addr, n + 1 => readByte m addr + 256 * readLE m (addr + 1) n

/-- `get_unaligned_beN`: read `n` bytes big-endian. -/
def readBE (m : PageMem) : Nat → Nat → Nat
  | _, 0 => 0
  | addr, n + 1 => readByte m addr * 256 ^ n + readBE m (addr + 1) n

/-- `get_field` on a byte page (`delta-index.c` lines 480-485): read a
little-endian 32-bit word at the containing byte, shift by the bit
offset within the byte, and mask to `size` bits. -/
def getFieldPage (m : PageMem) (off size : Nat) : Nat :=
  readLE m (off / 8) 4 / 2 ^ (off % 8) % 2 ^ size

/-- `get_immutable_header_offset` (`delta-index.c` lines 500-504): the
page header (`struct delta_page_header`, packed, 20 bytes) is followed by
19-bit list offsets. -/
def immutableHeaderOffset (listNumber : Nat) : Nat := 20 * 8 + listNumber * 19

/-- `get_immutable_start` (`delta-index.c` lines 507-510). -/
def getImmutableStart (m : PageMem) (listNumber : Nat) : Nat :=
  getFieldPage m (immutableHeaderOffset listNumber) 19

/-- `verify_delta_index_page` (`delta-index.c` lines 518-566): validate
the nonce, the list-count bound, the offset of the first list, the
monotonicity of the 19-bit offset table, the last list ending within the
page (leaving room for the guard bytes), and the all-ones guard bytes. -/
def verifyDeltaIndexPage (nonce listCount expectedNonce : Nat) (m : PageMem)
    (memSize : Nat) : Bool :=
  decide (nonce = expectedNonce) &&
  decide (listCount ≤ (memSize - 20) * 8 / 19) &&
  decide (getImmutableStart m 0 = immutableHeaderOffset (listCount + 1)) &&
  (List.range listCount).all
    (fun i => decide (getImmutableStart m i ≤ getImmutableStart m (i + 1))) &&
  decide (getImmutableStart m listCount ≤ (memSize - 7) * 8) &&
  (List.range 7).all (fun i => decide (readByte m (memSize - 7 + i) = 255))

/-- The page fields that `initialize_delta_index_page` populates on
success; `bigEndian` records which byte order was accepted. -/
structure DeltaIndexPageInfo where
  virtualChapterNumber : Nat
  lowestListNumber : Nat
  highestListNumber : Nat
  listCount : Nat
  bigEndian : Bool
  deriving DecidableEq, Repr

/-- `initialize_delta_index_page` (`delta-index.c` lines 569-641): first
interpret the header (nonce, virtual chapter, first list, list count at
byte offsets 0, 8, 16, 18) as little-endian; if validation fails, retry
as big-endian; if both fail, return `UDS_CORRUPT_DATA` (modelled as
`none`) — the C code deliberately does not log in that path. -/
def initializeDeltaIndexPage (expectedNonce : Nat) (m : PageMem) (memSize : Nat) :
    Option DeltaIndexPageInfo :=
  let nonceLE := readLE m 0 8
  let vcnLE := readLE m 8 8
  let firstLE := readLE m 16 2
  let countLE := readLE m 18 2
  if verifyDeltaIndexPage nonceLE countLE expectedNonce m memSize then
    some ⟨vcnLE, firstLE, firstLE + countLE - 1, countLE, false⟩
  else
    let nonceBE := readBE m 0 8
    let vcnBE := readBE m 8 8
    let firstBE := readBE m 16 2
    let countBE := readBE m 18 2
    if verifyDeltaIndexPage nonceBE countBE expectedNonce m memSize then
      some ⟨vcnBE, firstBE, firstBE + countBE - 1, countBE, true⟩
    else none

/-! ## Claim C5: immutable page load validation -/

/-- C5: `initialize_delta_index_page` returns `CORRUPT_DATA` exactly when
both the little-endian and the big-endian interpretation of the header
fail `verify_delta_index_page` (nonce, list-count bound, first-list
offset, offset monotonicity, last list within the page, all-ones guard
bytes); when the little-endian interpretation validates the page fields
are populated from it, and when only the big-endian interpretation
validates (the legacy format) the fields are populated from it. -/
theorem C5_page_validation (expectedNonce memSize : Nat) (m : PageMem) :
    (initializeDeltaIndexPage expectedNonce m memSize = none ↔
      (verifyDeltaIndexPage (readLE m 0 8) (readLE m 18 2) expectedNonce m memSize =
          false ∧
        verifyDeltaIndexPage (readBE m 0 8) (readBE m 18 2) expectedNonce m memSize =
          false)) ∧
    (verifyDeltaIndexPage (readLE m 0 8) (readLE m 18 2) expectedNonce m memSize =
        true →
      initializeDeltaIndexPage expectedNonce m memSize =
        some ⟨readLE m 8 8, readLE m 16 2, readLE m 16 2 + readLE m 18 2 - 1,
          readLE m 18 2, false⟩) ∧
    (verifyDeltaIndexPage (readLE m 0 8) (readLE m 18 2) expectedNonce m memSize =
        false →
      verifyDeltaIndexPage (readBE m 0 8) (readBE m 18 2) expectedNonce m memSize =
        true →
      initializeDeltaIndexPage expectedNonce m memSize =
        some ⟨readBE m 8 8, readBE m 16 2, readBE m 16 2 + readBE m 18 2 - 1,
          readBE m 18 2, true⟩) := by
  by_cases hle : verifyDeltaIndexPage (readLE m 0 8) (readLE m 18 2) expectedNonce m
      memSize = true
  · refine ⟨?_, ?_, ?_⟩
    · simp [initializeDeltaIndexPage, hle]
    · intro _
      simp [initializeDeltaIndexPage, hle]
    · intro hfalse
      rw [hle] at hfalse
      exact absurd hfalse (by simp)
  · have hle2 : verifyDeltaIndexPage (readLE m 0 8) (readLE m 18 2) expectedNonce m
        memSize = false := by
      simpa using hle
    by_cases hbe : verifyDeltaIndexPage (readBE m 0 8) (readBE m 18 2) expectedNonce m
        memSize = true
    · refine ⟨?_, ?_, ?_⟩
      · simp [initializeDeltaIndexPage, hle2, hbe]
      · intro hfalse
        rw [hle2] at hfalse
        exact absurd hfalse (by simp)
      · intro _ _
        simp [initializeDeltaIndexPage, hle2, hbe]
    · have hbe2 : verifyDeltaIndexPage (readBE m 0 8) (readBE m 18 2) expectedNonce m
          memSize = false := by
        simpa using hbe
      refine ⟨?_, ?_, ?_⟩
      · simp [initializeDeltaIndexPage, hle2, hbe2]
      · intro hfalse
        rw [hle2] at hfalse
        exact absurd hfalse (by simp)
      · intro _ hfalse
        rw [hbe2] at hfalse
        exact absurd hfalse (by simp)

/-- A concrete 64-byte page with nonce 0, one (empty) delta list, a
consistent 19-bit offset table, and correct guard bytes. -/
def c5SamplePage : PageMem := fun a =>
  if a = 18 then 1
  else if a = 20 then 198
  else if a = 22 then 48
  else if a = 23 then 6
  else if 57 ≤ a ∧ a < 64 then 255
  else 0

/-- C5 (witness): the validation theorem applied to a concrete valid
little-endian page. -/
theorem C5_witness :
    verifyDeltaIndexPage (readLE c5SamplePage 0 8) (readLE c5SamplePage 18 2) 0
      c5SamplePage 64 = true ∧
    initializeDeltaIndexPage 0 c5SamplePage 64 = some ⟨0, 0, 0, 1, false⟩ := by
  have hv : verifyDeltaIndexPage (readLE c5SamplePage 0 8) (readLE c5SamplePage 18 2)
      0 c5SamplePage 64 = true := by decide
  have h := (C5_page_validation 0 64 c5SamplePage).2.1 hv
  refine ⟨hv, ?_⟩
  rw [h]
  decide

/-! ## The index zone request path

`search_index_zone` (`index.c` lines 433-535) and the surrounding request
dispatch. The collaborators that live in other translation units —
`get_volume_index_record`, `get_record_from_zone`,
`search_sparse_cache_in_zone`, `set_volume_index_record_chapter`,
`put_volume_index_record`, `put_open_chapter` — are abstracted as an
oracle recording the result each call would produce. -/

/-- `enum uds_request_type`. -/
inductive RequestType where
  | post
  | update
  | query
  | queryNoUpdate
  | delete
  deriving DecidableEq, Repr

/-- `enum uds_index_region` (the request `location` tag). -/
inductive Location where
  | unknown
  | inOpenChapter
  | inDense
  | inSparse
  | recordPageLookup
  | unavailable
  deriving DecidableEq, Repr

/-- The request fields that `search_index_zone` reads and writes. -/
structure IndexRequest where
  type : RequestType
  requeued : Bool
  virtualChapter : Nat
  location : Location
  found : Bool
  deriving DecidableEq, Repr

/-- The `volume_index_record` fields read by `search_index_zone`. -/
structure VolumeIndexRecord where
  isFound : Bool
  isCollision : Bool
  virtualChapter : Nat
  deriving DecidableEq, Repr

/-- The zone state read by `search_index_zone`. -/
structure ZoneView where
  newestVirtualChapter : Nat
  sparseGeometry : Bool
  isVolumeIndexSample : Bool
  chapterSparse : Bool
  deriving DecidableEq, Repr

/-- The outcomes of the collaborator calls made by `search_index_zone`. -/
structure SearchOracle where
  getRecordResult : Status
  record : VolumeIndexRecord
  zoneRecordResult : Status
  zoneRecordFound : Bool
  sparseResult : Status
  sparseFound : Bool
  setChapterResult : Status
  putRecordResult : Status
  putInZoneResult : Status
  deriving DecidableEq, Repr

/-- What `search_index_zone` produced: the status it returned, whether it
reached `put_record_in_zone` (i.e. the record was appended to the open
chapter), and the updated request. -/
structure SearchOutcome where
  status : Status
  addedToOpenChapter : Bool
  request : IndexRequest
  deriving DecidableEq, Repr

/-- `set_request_location` (`index.c` lines 325-331). -/
def setRequestLocation (req : IndexRequest) (newLocation : Location) : IndexRequest :=
  { req with
    location := newLocation,
    found := newLocation = Location.inOpenChapter ∨ newLocation = Location.inDense ∨
      newLocation = Location.inSparse }

/-- `set_chapter_location` (`index.c` lines 333-344); the
`is_zone_chapter_sparse` test is the oracle's `chapterSparse`. -/
def setChapterLocation (req : IndexRequest) (z : ZoneView) (virtualChapter : Nat) :
    IndexRequest :=
  { req with
    found := true,
    location :=
      if virtualChapter = z.newestVirtualChapter then Location.inOpenChapter
      else if z.chapterSparse then Location.inSparse
      else Location.inDense }

/-- The common tail of `search_index_zone` from `if (result == UDS_OVERFLOW)`
on (`index.c` lines 517-534): an `UDS_OVERFLOW` result from the volume
index is swallowed (`UDS_SUCCESS` is returned and the open chapter is not
touched); any other failure is propagated; on success the record is
routed to `put_record_in_zone` (the metadata selection between new and
old metadata is not modelled). -/
def searchZoneFinish (req : IndexRequest) (o : SearchOracle) (result : Status) :
    SearchOutcome :=
  if result = Status.overflow then ⟨Status.success, false, req⟩
  else if result ≠ Status.success then ⟨result, false, req⟩
  else ⟨o.putInZoneResult, true, req⟩

/-- The part of `search_index_zone` after `get_record_from_zone`
(`index.c` lines 457-534): the found/overflow-record branch updates or
re-adds the volume-index entry; the not-found branch may probe the
sparse cache and then adds a new entry referencing the open chapter. -/
def searchZoneTail (z : ZoneView) (req0 : IndexRequest) (o : SearchOracle)
    (found : Bool) : SearchOutcome :=
  let req := if found then setChapterLocation req0 z o.record.virtualChapter else req0
  let overflowRecord := o.record.isFound = true ∧ o.record.isCollision = true ∧
    found = false
  let chapter := z.newestVirtualChapter
  if found = true ∨ overflowRecord then
    if req.type = RequestType.queryNoUpdate ∨
        (req.type = RequestType.query ∧ overflowRecord) then
      ⟨Status.success, false, req⟩
    else if o.record.virtualChapter ≠ chapter then
      searchZoneFinish req o o.setChapterResult
    else if req.type ≠ RequestType.update then
      ⟨Status.success, false, req⟩
    else
      searchZoneFinish req o Status.success
  else
    let sparseProbe := req.location ≠ Location.recordPageLookup ∧
      req.location ≠ Location.unavailable ∧
      z.sparseGeometry = true ∧ z.isVolumeIndexSample = false
    if req.location ≠ Location.recordPageLookup ∧
        req.location ≠ Location.unavailable ∧
        z.sparseGeometry = true ∧ z.isVolumeIndexSample = false ∧
        o.sparseResult ≠ Status.success then
      ⟨o.sparseResult, false, req⟩
    else
      let found2 :=
        if req.location = Location.recordPageLookup then true
        else if req.location = Location.unavailable then false
        else if sparseProbe then o.sparseFound
        else false
      let req2 := if found2 then setRequestLocation req Location.inSparse else req
      if req2.type = RequestType.queryNoUpdate ∨
          (req2.type = RequestType.query ∧ found2 = false) then
        ⟨Status.success, false, req2⟩
      else
        searchZoneFinish req2 o o.putRecordResult

/-- The requeued-request check and record-chapter assignment at the head
of the found branch of `search_index_zone` (`index.c` lines 447-451). -/
def searchZoneRequeue (req0 : IndexRequest) (o : SearchOracle) : IndexRequest :=
  { (if req0.requeued = true ∧ req0.virtualChapter ≠ o.record.virtualChapter then
      setRequestLocation req0 Location.unknown
    else req0) with
    virtualChapter := o.record.virtualChapter }

/-- `search_index_zone` (`index.c` lines 433-535), with collaborator
results supplied by the oracle. -/
def searchIndexZone (z : ZoneView) (req0 : IndexRequest) (o : SearchOracle) :
    SearchOutcome :=
  if o.getRecordResult ≠ Status.success then ⟨o.getRecordResult, false, req0⟩
  else if o.record.isFound then
    if o.zoneRecordResult ≠ Status.success then
      ⟨o.zoneRecordResult, false, searchZoneRequeue req0 o⟩
    else searchZoneTail z (searchZoneRequeue req0 o) o o.zoneRecordFound
  else searchZoneTail z req0 o false

/-- The request-completion step of `execute_zone_request` (`index.c`
lines 651-660): unless the request was queued by the page cache, its
status is set to the dispatch result and the callback fires. -/
def completeRequestStatus (result : Status) : Option Status :=
  if result = Status.queued then none else some result

/-! ## Claim C6: volume-index overflow is swallowed -/

theorem searchZoneFinish_overflow (req : IndexRequest) (o : SearchOracle) :
    searchZoneFinish req o Status.overflow = ⟨Status.success, false, req⟩ := rfl

theorem searchZoneTail_overflow (z : ZoneView) (req0 : IndexRequest)
    (o : SearchOracle) (found : Bool)
    (hsparse : o.sparseResult = Status.success)
    (hset : o.setChapterResult = Status.overflow)
    (hput : o.putRecordResult = Status.overflow)
    (hvc : o.record.virtualChapter ≠ z.newestVirtualChapter) :
    (searchZoneTail z req0 o found).status = Status.success ∧
    (searchZoneTail z req0 o found).addedToOpenChapter = false := by
  unfold searchZoneTail searchZoneFinish
  split_ifs <;> (try simp_all) <;> (constructor <;> (split <;> rfl))

/-- C6: when the volume index returns `UDS_OVERFLOW` while a
POST/UPDATE/QUERY request is adding or updating a record — i.e. the
record is being added or moved to the open chapter, so either
`set_volume_index_record_chapter` or `put_volume_index_record` runs and
reports `UDS_OVERFLOW` — `search_index_zone` returns `UDS_SUCCESS`
without reaching `put_record_in_zone`, so the record is not added to the
open chapter and the request completes with status `UDS_SUCCESS`. -/
theorem C6_overflow_swallowed (z : ZoneView) (req : IndexRequest) (o : SearchOracle)
    (hget : o.getRecordResult = Status.success)
    (hzone : o.zoneRecordResult = Status.success)
    (hsparse : o.sparseResult = Status.success)
    (hset : o.setChapterResult = Status.overflow)
    (hput : o.putRecordResult = Status.overflow)
    (hvc : o.record.virtualChapter ≠ z.newestVirtualChapter) :
    (searchIndexZone z req o).status = Status.success ∧
    (searchIndexZone z req o).addedToOpenChapter = false ∧
    completeRequestStatus (searchIndexZone z req o).status = some Status.success := by
  have hmain : (searchIndexZone z req o).status = Status.success ∧
      (searchIndexZone z req o).addedToOpenChapter = false := by
    unfold searchIndexZone
    rw [if_neg (by simp [hget])]
    by_cases hf : o.record.isFound = true
    · rw [if_pos hf, if_neg (by simp [hzone])]
      exact searchZoneTail_overflow z _ o _ hsparse hset hput hvc
    · rw [if_neg hf]
      exact searchZoneTail_overflow z _ o _ hsparse hset hput hvc
  refine ⟨hmain.1, hmain.2, ?_⟩
  rw [hmain.1]
  rfl

/-- C6 (witness): a concrete POST request whose volume-index put
overflows still completes with `UDS_SUCCESS` and is not added to the
open chapter. -/
theorem C6_witness :
    (searchIndexZone ⟨5, false, false, false⟩
        ⟨RequestType.post, false, 0, Location.unknown, false⟩
        ⟨Status.success, ⟨false, false, 0⟩, Status.success, false, Status.success,
          false, Status.overflow, Status.overflow, Status.success⟩).status =
      Status.success ∧
    (searchIndexZone ⟨5, false, false, false⟩
        ⟨RequestType.post, false, 0, Location.unknown, false⟩
        ⟨Status.success, ⟨false, false, 0⟩, Status.success, false, Status.success,
          false, Status.overflow, Status.overflow, Status.success⟩).addedToOpenChapter =
      false := by
  have h := C6_overflow_swallowed ⟨5, false, false, false⟩
    ⟨RequestType.post, false, 0, Location.unknown, false⟩
    ⟨Status.success, ⟨false, false, 0⟩, Status.success, false, Status.success, false,
      Status.overflow, Status.overflow, Status.success⟩
    rfl rfl rfl rfl rfl (by norm_num)
  exact ⟨h.1, h.2.1⟩

/-! ## The chapter writer

`struct chapter_writer`, `start_closing_chapter` (`index.c` lines
217-231) and the body of the writer thread loop `close_chapters`
(`index.c` lines 687-753). `close_open_chapter`, `discard_open_chapter`
and `chapters_to_expire` live in other translation units and are
abstracted as parameters. -/

/-- The shared state of the chapter writer and the index fields the
writer loop updates. `chapters z` records whether zone `z` has installed
its closed chapter in the writer's slot. -/
structure ChapterWriterState where
  zonesToWrite : Nat
  zoneCount : Nat
  stop : Bool
  result : Status
  chapters : Nat → Bool
  hasSavedOpenChapter : Bool
  newestVirtualChapter : Nat
  oldestVirtualChapter : Nat

/-- The writer loop's wait condition (`index.c` line 696): the writer
blocks while `zones_to_write < zone_count`. -/
def writerMustWait (s : ChapterWriterState) : Bool :=
  decide (s.zonesToWrite < s.zoneCount)

/-- `start_closing_chapter` (`index.c` lines 217-231): install the
zone's chapter in the writer slot, increment `zones_to_write`, broadcast,
and return the new count of finished zones. -/
def startClosingChapter (s : ChapterWriterState) (zoneNumber : Nat) :
    ChapterWriterState × Nat :=
  ({ s with
      zonesToWrite := s.zonesToWrite + 1,
      chapters := fun i => if i = zoneNumber then true else s.chapters i },
    s.zonesToWrite + 1)

/-- One iteration of the body of `close_chapters` (`index.c` lines
709-752), entered once the wait condition is false: discard a previously
saved open chapter if one exists, close the open chapter
(`close_open_chapter`, whose result is `closeResult`), then under the
mutex increment the index-wide newest virtual chapter, advance the
oldest virtual chapter by `chapters_to_expire` of the new newest, store
the result, reset `zones_to_write` to 0 and broadcast. Returns the new
state, whether the saved open chapter was discarded, and whether the
condition variable was broadcast. -/
def closeChaptersIteration (expire : Nat → Nat) (closeResult : Status)
    (s : ChapterWriterState) : ChapterWriterState × Bool × Bool :=
  let discarded := s.hasSavedOpenChapter
  ({ s with
      hasSavedOpenChapter := false,
      newestVirtualChapter := s.newestVirtualChapter + 1,
      oldestVirtualChapter :=
        s.oldestVirtualChapter + expire (s.newestVirtualChapter + 1),
      result := closeResult,
      zonesToWrite := 0 },
    discarded, true)

/-! ## Claim C7: the chapter writer commit step -/

/-- C7: the chapter writer waits until `zones_to_write` equals
`zone_count` (the wait condition is exactly `zones_to_write <
zone_count`); it then discards a previously saved open chapter exactly
when one exists, closes the open chapter, and, the close having
succeeded, increments the index-wide newest virtual chapter, advances
the oldest virtual chapter by the number of chapters that have now
expired, resets `zones_to_write` to 0, and broadcasts on its condition
variable. -/
theorem C7_chapter_writer_commit (expire : Nat → Nat) (closeResult : Status)
    (s : ChapterWriterState)
    (hall : s.zonesToWrite = s.zoneCount)
    (hok : closeResult = Status.success) :
    writerMustWait s = false ∧
    (closeChaptersIteration expire closeResult s).2.1 = s.hasSavedOpenChapter ∧
    (closeChaptersIteration expire closeResult s).1.hasSavedOpenChapter = false ∧
    (closeChaptersIteration expire closeResult s).1.newestVirtualChapter =
      s.newestVirtualChapter + 1 ∧
    (closeChaptersIteration expire closeResult s).1.oldestVirtualChapter =
      s.oldestVirtualChapter + expire (s.newestVirtualChapter + 1) ∧
    (closeChaptersIteration expire closeResult s).1.zonesToWrite = 0 ∧
    (closeChaptersIteration expire closeResult s).1.result = Status.success ∧
    (closeChaptersIteration expire closeResult s).2.2 = true := by
  refine ⟨?_, rfl, rfl, rfl, rfl, rfl, ?_, rfl⟩
  · simp [writerMustWait, hall]
  · show closeResult = Status.success
    exact hok

/-- C7 (witness): the commit step applied to a concrete two-zone state
with both zones closed and a saved open chapter present. -/
theorem C7_witness :
    writerMustWait
      ⟨2, 2, false, Status.success, fun _ => true, true, 7, 3⟩ = false ∧
    (closeChaptersIteration (fun _ => 1) Status.success
      ⟨2, 2, false, Status.success, fun _ => true, true, 7, 3⟩).1.newestVirtualChapter
      = 8 ∧
    (closeChaptersIteration (fun _ => 1) Status.success
      ⟨2, 2, false, Status.success, fun _ => true, true, 7, 3⟩).1.oldestVirtualChapter
      = 4 ∧
    (closeChaptersIteration (fun _ => 1) Status.success
      ⟨2, 2, false, Status.success, fun _ => true, true, 7, 3⟩).1.zonesToWrite = 0 := by
  have h := C7_chapter_writer_commit (fun _ => 1) Status.success
    ⟨2, 2, false, Status.success, fun _ => true, true, 7, 3⟩ rfl rfl
  exact ⟨h.1, h.2.2.2.1, h.2.2.2.2.1, h.2.2.2.2.2.1⟩

/-! ## The zone chapter-close protocol

The protocol skeleton of `open_next_chapter` (`index.c` lines 254-297),
`handle_chapter_closed` (lines 299-305), `finish_previous_chapter`
(lines 181-196) and the writer commit (lines 745-752), as a transition
system over the per-zone newest virtual chapters:

  * a zone closes its open chapter (either because it filled it or
    because it received an `ANNOUNCE_CHAPTER_CLOSED` message for its
    current chapter): `finish_previous_chapter` first waits until the
    index-wide newest virtual chapter has caught up with the zone
    (`index->newest_virtual_chapter < current` blocks), then the zone
    increments its own newest virtual chapter and calls
    `start_closing_chapter`, which increments `zones_to_write`;
  * when `zones_to_write = zone_count`, the writer commits: it
    increments the index-wide newest virtual chapter and resets
    `zones_to_write` to 0. -/

/-- The protocol state: per-zone newest virtual chapters, the index-wide
newest virtual chapter maintained by the chapter writer, and the
writer's `zones_to_write` counter. -/
structure ZoneProtocolState (n : Nat) where
  zoneNewest : Fin n → Nat
  indexNewest : Nat
  zonesToWrite : Nat

/-- The initial state: every zone and the writer agree on the newest
virtual chapter `start` (as set up by `make_index`). -/
def zoneProtocolInit (n start : Nat) : ZoneProtocolState n :=
  ⟨fun _ => start, start, 0⟩

/-- One interleaving step of the chapter-close protocol. -/
inductive ZoneStep (n : Nat) : ZoneProtocolState n → ZoneProtocolState n → Prop where
  /-- Zone `z` closes its open chapter (`open_next_chapter`): enabled
  once `finish_previous_chapter`'s wait has passed, i.e. when the
  index-wide newest chapter has reached the zone's newest. -/
  | close (z : Fin n) (s : ZoneProtocolState n)
      (hwait : s.zoneNewest z ≤ s.indexNewest) :
      ZoneStep n s
        ⟨Function.update s.zoneNewest z (s.zoneNewest z + 1), s.indexNewest,
          s.zonesToWrite + 1⟩
  /-- The chapter writer commits (`close_chapters`): enabled when every
  zone has handed over its chapter. -/
  | commit (s : ZoneProtocolState n) (hall : s.zonesToWrite = n) :
      ZoneStep n s ⟨s.zoneNewest, s.indexNewest + 1, 0⟩

/-- The states reachable from the initial state by any interleaving. -/
inductive ZoneReachable (n start : Nat) : ZoneProtocolState n → Prop where
  | init : ZoneReachable n start (zoneProtocolInit n start)
  | step {s t : ZoneProtocolState n} :
      ZoneReachable n start s → ZoneStep n s t → ZoneReachable n start t

/-- The protocol invariant: every zone is at the writer's chapter or one
ahead of it, and `zones_to_write` counts the zones that are ahead. -/
def ZoneInvariant {n : Nat} (s : ZoneProtocolState n) : Prop :=
  (∀ z, s.zoneNewest z = s.indexNewest ∨ s.zoneNewest z = s.indexNewest + 1) ∧
  s.zonesToWrite =
    (Finset.univ.filter fun z => s.zoneNewest z = s.indexNewest + 1).card

theorem zoneInvariant_init (n start : Nat) :
    ZoneInvariant (zoneProtocolInit n start) := by
  constructor
  · intro z
    exact Or.inl rfl
  · show 0 = Finset.card _
    rw [Finset.filter_false_of_mem, Finset.card_empty]
    intro z _
    show ¬ (start = start + 1)
    omega

theorem zoneInvariant_step {n : Nat} {s t : ZoneProtocolState n}
    (hs : ZoneInvariant s) (hstep : ZoneStep n s t) : ZoneInvariant t := by
  rcases hs with ⟨hrange, hcount⟩
  cases hstep with
  | close z s hwait =>
    have hz : s.zoneNewest z = s.indexNewest := by
      rcases hrange z with h | h
      · exact h
      · omega
    constructor
    · intro w
      by_cases hw : w = z
      · subst hw
        right
        simp [Function.update, hz]
      · rcases hrange w with h | h
        · left
          simpa [Function.update, hw] using h
        · right
          simpa [Function.update, hw] using h
    · show s.zonesToWrite + 1 = Finset.card _
      have hins :
          (Finset.univ.filter fun w =>
              Function.update s.zoneNewest z (s.zoneNewest z + 1) w =
                s.indexNewest + 1) =
            insert z
              (Finset.univ.filter fun w => s.zoneNewest w = s.indexNewest + 1) := by
        ext w
        by_cases hw : w = z
        · subst hw
          simp [Function.update, hz]
        · simp [Function.update, hw, hz]
      rw [hins, Finset.card_insert_of_not_mem, ← hcount]
      simp [hz]
  | commit s hall =>
    have hfull : ∀ z, s.zoneNewest z = s.indexNewest + 1 := by
      intro z
      have hle : (Finset.univ.filter fun w =>
          s.zoneNewest w = s.indexNewest + 1).card ≤ Finset.univ.card :=
        Finset.card_le_card (Finset.filter_subset _ _)
      have hcardn : (Finset.univ.filter fun w =>
          s.zoneNewest w = s.indexNewest + 1).card = n := by
        rw [← hcount, hall]
      have huniv : (Finset.univ.filter fun w =>
          s.zoneNewest w = s.indexNewest + 1) = Finset.univ := by
        apply Finset.eq_univ_of_card
        rw [hcardn, Fintype.card_fin]
      have := Finset.mem_univ z
      rw [← huniv] at this
      exact (Finset.mem_filter.mp this).2
    constructor
    · intro z
      left
      exact hfull z
    · show 0 = Finset.card _
      rw [Finset.filter_false_of_mem, Finset.card_empty]
      intro z _
      have := hfull z
      show ¬ (s.zoneNewest z = s.indexNewest + 1 + 1)
      omega

theorem zoneInvariant_reachable {n start : Nat} {s : ZoneProtocolState n}
    (h : ZoneReachable n start s) : ZoneInvariant s := by
  induction h with
  | init => exact zoneInvariant_init n start
  | step _ hstep ih => exact zoneInvariant_step ih hstep

/-! ## Claim C8: bounded inter-zone chapter skew -/

/-- C8: in every state reachable by any interleaving of zones filling
(and closing) their open chapters and the writer committing, the newest
virtual chapters of any two zones differ by at most one; moreover each
zone's newest virtual chapter is strictly increasing over time: no step
decreases any zone's newest virtual chapter, and a zone's close step
strictly increases its own. -/
theorem C8_bounded_zone_skew (n start : Nat) (s : ZoneProtocolState n)
    (hreach : ZoneReachable n start s) :
    (∀ z1 z2 : Fin n, s.zoneNewest z1 ≤ s.zoneNewest z2 + 1) ∧
    (∀ t : ZoneProtocolState n, ZoneStep n s t →
      (∀ z : Fin n, s.zoneNewest z ≤ t.zoneNewest z)) ∧
    (∀ t : ZoneProtocolState n, ∀ z : Fin n,
      ZoneStep n s ⟨Function.update s.zoneNewest z (s.zoneNewest z + 1),
        t.indexNewest, t.zonesToWrite⟩ →
      s.zoneNewest z < Function.update s.zoneNewest z (s.zoneNewest z + 1) z) := by
  have hinv := zoneInvariant_reachable hreach
  refine ⟨?_, ?_, ?_⟩
  · intro z1 z2
    rcases hinv.1 z1 with h1 | h1 <;> rcases hinv.1 z2 with h2 | h2 <;> omega
  · intro t hstep
    cases hstep with
    | close z s hwait =>
      intro w
      by_cases hw : w = z
      · subst hw
        simp [Function.update]
      · simp [Function.update, hw]
    | commit s hall =>
      intro w
      exact Nat.le_refl _
  · intro t z _
    simp [Function.update]

/-- C8 (witness): the skew bound applied to the concrete two-zone state
reached from chapter 0 after zone 0 closes its open chapter. -/
theorem C8_witness :
    ZoneReachable 2 0
      ⟨Function.update (zoneProtocolInit 2 0).zoneNewest 0 1, 0, 1⟩ ∧
    (∀ z1 z2 : Fin 2,
      (⟨Function.update (zoneProtocolInit 2 0).zoneNewest 0 1, 0, 1⟩ :
        ZoneProtocolState 2).zoneNewest z1 ≤
      (⟨Function.update (zoneProtocolInit 2 0).zoneNewest 0 1, 0, 1⟩ :
        ZoneProtocolState 2).zoneNewest z2 + 1) := by
  have hreach : ZoneReachable 2 0
      ⟨Function.update (zoneProtocolInit 2 0).zoneNewest 0 1, 0, 1⟩ := by
    have h0 : ZoneReachable 2 0 (zoneProtocolInit 2 0) := ZoneReachable.init
    have hstep := ZoneStep.close (n := 2) 0 (zoneProtocolInit 2 0)
      (by exact Nat.le_refl 0)
    exact ZoneReachable.step h0 hstep
  exact ⟨hreach, (C8_bounded_zone_skew 2 0 _ hreach).1⟩

/-! ## The mutable delta zone

`struct delta_zone` and `struct delta_list` (`delta-index.h`), and the
mutable-store operations of `delta-index.c`: `reset_delta_index`,
`start_delta_index_search`, `next_delta_index_entry`,
`get_delta_index_entry`, `put_delta_index_entry`,
`remove_delta_index_entry`, `insert_bits`, `delete_bits`,
`extend_delta_zone`, `compute_new_list_offsets` and
`rebalance_delta_zone`. One zone is modelled; delta lists are indexed
`0 .. list_count + 1` where 0 and `list_count + 1` are the head and tail
guard lists. -/

/-- `struct delta_list`: the start bit offset of the list in the zone
memory, its size in bits, and the saved search position. -/
structure DeltaList where
  start : Nat
  size : Nat
  saveKey : Nat
  saveOffset : Nat
  deriving DecidableEq, Repr

/-- `get_delta_list_byte_start` (`delta-index.c` lines 229-232). -/
def getDeltaListByteStart (l : DeltaList) : Nat := l.start / 8

/-- `get_delta_list_byte_size` (`delta-index.c` lines 234-239):
`BITS_TO_BYTES(start % 8 + size)`. -/
def getDeltaListByteSize (l : DeltaList) : Nat := (l.start % 8 + l.size + 7) / 8

/-- Pointwise update of the delta-list array. -/
def updateList (ls : Nat → DeltaList) (i : Nat) (l : DeltaList) : Nat → DeltaList :=
  fun j => if j = i then l else ls j

/-- `struct delta_zone`: the zone memory (bit-addressed), its size in
bytes, the delta lists (with the two guard lists), the coding constants
and payload width, and the statistics counters. -/
structure DeltaZone where
  memory : Mem
  size : Nat
  lists : Nat → DeltaList
  listCount : Nat
  c : CodingConstants
  valueBits : Nat
  recordCount : Nat
  collisionCount : Nat
  overflowCount : Nat
  discardCount : Nat
  rebalanceCount : Nat

/-- The per-zone body of `reset_delta_index` (`delta-index.c` lines
298-337): zero all list headers, set the tail guard list to
`GUARD_BITS = 56` all-one bits at the end of the memory, and space the
real lists evenly. -/
def resetDeltaZone (z : DeltaZone) : DeltaZone :=
  let listBits := z.size * 8 - 56
  let spacing := listBits / z.listCount
  { z with
    lists := fun i =>
      if i = z.listCount + 1 then ⟨listBits, 56, 0, 0⟩
      else if 1 ≤ i ∧ i ≤ z.listCount then ⟨spacing / 2 + (i - 1) * spacing, 0, 0, 0⟩
      else ⟨0, 0, 0, 0⟩,
    memory := fun b => if listBits ≤ b ∧ b < z.size * 8 then true else z.memory b,
    discardCount := z.discardCount + z.recordCount,
    recordCount := 0,
    collisionCount := 0 }

/-- `struct delta_index_entry`: the iterator over a delta list. The
`delta_zone` and `delta_list` pointers of the C structure are
represented by passing the zone and the list number explicitly. -/
structure DeltaIndexEntry where
  key : Nat
  delta : Nat
  offset : Nat
  entryBits : Nat
  atEnd : Bool
  isCollision : Bool
  listOverflow : Bool
  listNumber : Nat
  deriving DecidableEq, Repr

/-- `start_delta_index_search` (`delta-index.c` lines 1429-1499) for the
mutable single-zone form: bounds-check the list number and seed the
iterator, resuming from the list's saved position when the sought key is
beyond the saved key. -/
def startDeltaIndexSearch (z : DeltaZone) (listNumber key : Nat) :
    Except Status DeltaIndexEntry :=
  if z.listCount ≤ listNumber then Except.error Status.corruptData
  else
    let l := z.lists (listNumber + 1)
    let seed := if l.saveKey < key then (l.saveKey, l.saveOffset) else (0, 0)
    Except.ok
      { key := seed.1, delta := 0, offset := seed.2, entryBits := 0,
        atEnd := false, isCollision := false, listOverflow := false,
        listNumber := listNumber }

/-- `decode_delta` (`delta-index.c` lines 1511-1548) at the zone level:
decode the delta code that follows the payload of the entry at the
current offset, updating delta, key, collision flag and entry size
(collision entries carry `COLLISION_BITS = 256` extension bits). -/
def decodeDeltaEntry (z : DeltaZone) (l : DeltaList) (e : DeltaIndexEntry)
    (fuel : Nat) : Option DeltaIndexEntry :=
  match decodeDeltaCode z.c z.memory (l.start + e.offset + z.valueBits) fuel with
  | none => none
  | some (delta, keyBits) =>
    let isColl := delta = 0 ∧ 0 < e.offset
    some
      { e with
        delta := delta,
        key := e.key + delta,
        isCollision := decide isColl,
        entryBits := z.valueBits + keyBits + (if isColl then 256 else 0) }

/-- `next_delta_index_entry` (`delta-index.c` lines 1550-1589): advance
past the current entry; report `at_end` exactly at the list size, decode
the next entry otherwise, and return `UDS_CORRUPT_DATA` when the entry
extends past the end of the list. The decode fuel models the zero-bit
scan, which the C code bounds with the all-ones tail guard list. -/
def nextDeltaIndexEntry (z : DeltaZone) (e : DeltaIndexEntry) (fuel : Nat) :
    Except Status DeltaIndexEntry :=
  if e.atEnd then Except.error Status.badState
  else
    let l := z.lists (e.listNumber + 1)
    let offset := e.offset + e.entryBits
    if l.size ≤ offset then
      if offset = l.size then
        Except.ok
          { e with
            offset := offset, atEnd := true, delta := 0, isCollision := false }
      else Except.error Status.corruptData
    else
      match decodeDeltaEntry z l { e with offset := offset } fuel with
      | none => Except.error Status.corruptData
      | some e2 =>
        if l.size < e2.offset + e2.entryBits then Except.error Status.corruptData
        else Except.ok e2

/-- `remember_delta_index_offset` (`delta-index.c` lines 1591-1603). -/
def rememberDeltaIndexOffset (z : DeltaZone) (e : DeltaIndexEntry) :
    Except Status DeltaZone :=
  if e.isCollision then Except.error Status.assertionFailed
  else
    let j := e.listNumber + 1
    let l := z.lists j
    Except.ok
      { z with
        lists := updateList z.lists j
          { l with saveKey := e.key - e.delta, saveOffset := e.offset } }

/-- `get_collision_name` (`delta-index.c` lines 1617-1626): the 32 bytes
of the full record name stored in the collision extension bits. -/
def getCollisionName (m : Mem) (off : Nat) : List Nat :=
  (List.range 32).map fun i => getBits m (off + 8 * i) 8

/-- `set_collision_name` (`delta-index.c` lines 1628-1641); name bytes
are `u8`, modelled modulo 256. -/
def setCollisionNameBits (m : Mem) (off : Nat) (name : List Nat) : Mem :=
  (List.range 32).foldl (fun mm i => setBits (name.getD i 0 % 256) mm (off + 8 * i) 8) m

/-- The do-while search loop of `get_delta_index_entry` (`delta-index.c`
lines 1655-1659): advance until at end or until the entry key reaches
the sought key. `lfuel` bounds the loop (the C loop is bounded because
every entry is at least one bit). -/
def searchLoop (z : DeltaZone) (key : Nat) (e : DeltaIndexEntry) (dfuel : Nat) :
    Nat → Except Status DeltaIndexEntry
  | 0 => Except.error Status.corruptData
  | lfuel + 1 =>
    match nextDeltaIndexEntry z e dfuel with
    | Except.error st => Except.error st
    | Except.ok e2 =>
      if e2.atEnd = false ∧ e2.key < key then searchLoop z key e2 dfuel lfuel
      else Except.ok e2

/-- The collision-scan loop of `get_delta_index_entry` (`delta-index.c`
lines 1665-1684): when the key matched, scan the collision entries that
follow for one whose stored full name equals the sought name; keep the
original entry when none matches. -/
def collisionLoop (z : DeltaZone) (name : List Nat) (e ce : DeltaIndexEntry)
    (dfuel : Nat) : Nat → Except Status DeltaIndexEntry
  | 0 => Except.error Status.corruptData
  | lfuel + 1 =>
    match nextDeltaIndexEntry z ce dfuel with
    | Except.error st => Except.error st
    | Except.ok ce2 =>
      if ce2.atEnd = true ∨ ce2.isCollision = false then Except.ok e
      else
        let l := z.lists (ce2.listNumber + 1)
        if getCollisionName z.memory (l.start + ce2.offset + ce2.entryBits - 256)
            = name.map (· % 256) then
          Except.ok ce2
        else collisionLoop z name e ce2 dfuel lfuel

/-- `get_delta_index_entry` (`delta-index.c` lines 1643-1687): search
the list, remember the position reached (updating the list's saved
offset), and resolve collisions by comparing full names. -/
def getDeltaIndexEntry (z : DeltaZone) (listNumber key : Nat) (name : List Nat)
    (dfuel lfuel : Nat) : Except Status (DeltaZone × DeltaIndexEntry) :=
  match startDeltaIndexSearch z listNumber key with
  | Except.error st => Except.error st
  | Except.ok e0 =>
    match searchLoop z key e0 dfuel lfuel with
    | Except.error st => Except.error st
    | Except.ok e1 =>
      match rememberDeltaIndexOffset z e1 with
      | Except.error st => Except.error st
      | Except.ok z1 =>
        if e1.atEnd = false ∧ key = e1.key then
          match collisionLoop z1 name e1 e1 dfuel lfuel with
          | Except.error st => Except.error st
          | Except.ok e2 => Except.ok (z1, e2)
        else Except.ok (z1, e1)

/-- `get_delta_entry_value` (`delta-index.c` lines 1706-1711). -/
def getDeltaEntryValue (z : DeltaZone) (e : DeltaIndexEntry) : Nat :=
  getBits z.memory ((z.lists (e.listNumber + 1)).start + e.offset) z.valueBits

/-- `set_delta` (`delta-index.c` lines 1605-1615) applied to an entry. -/
def setDeltaEntry (z : DeltaZone) (e : DeltaIndexEntry) (delta : Nat) :
    DeltaIndexEntry :=
  { e with delta := delta, entryBits := z.valueBits + setDeltaKeyBits z.c delta }

/-- `encode_entry` (`delta-index.c` lines 1889-1900): write the payload,
then the delta code, then (for a collision entry) the full name. -/
def encodeEntry (z : DeltaZone) (e : DeltaIndexEntry) (value : Nat)
    (name : Option (List Nat)) : DeltaZone :=
  let off := (z.lists (e.listNumber + 1)).start + e.offset
  let m1 := setBits value z.memory off z.valueBits
  let m2 := encodeDelta z.c e.delta m1 (off + z.valueBits)
  match name with
  | none => { z with memory := m2 }
  | some nm => { z with memory := setCollisionNameBits m2 (off + e.entryBits - 256) nm }

/-! ### Rebalancing -/

/-- The byte-offset recursion of `compute_new_list_offsets`
(`delta-index.c` lines 957-984): consecutive new byte offsets differ by
the list's byte size plus the spacing, with half a spacing removed
before list 1 and the growing gap inserted before `growing_index`. -/
def newByteOffset (z : DeltaZone) (growingIndex growingSize spacing : Nat) :
    Nat → Nat
  | 0 => 0
  | i + 1 =>
    newByteOffset z growingIndex growingSize spacing i +
      getDeltaListByteSize (z.lists i) + spacing -
      (if i = 0 then spacing / 2 else 0) +
      (if i + 1 = growingIndex then growingSize else 0)

/-- `compute_new_list_offsets` (`delta-index.c` lines 957-984): the new
start bit offsets keep each list's bit offset within its starting byte,
and the tail guard list is pinned to the end of the zone memory. -/
def computeNewListOffsets (z : DeltaZone) (growingIndex growingSize usedSpace : Nat) :
    Nat → Nat :=
  let spacing := (z.size - usedSpace) / z.listCount
  fun i =>
    if i = z.listCount + 1 then z.size * 8 - (z.lists (z.listCount + 1)).size
    else newByteOffset z growingIndex growingSize spacing i * 8 + (z.lists i).start % 8

/-- The single-list move of `rebalance_delta_zone` (`delta-index.c`
lines 248-262): update the list's start offset and `memmove` its
covering bytes (modelled as an overlap-safe move of the bits of those
bytes). -/
def rebalanceMoveOne (newOffs : Nat → Nat) (i : Nat)
    (st : (Nat → DeltaList) × Mem) : (Nat → DeltaList) × Mem :=
  if (st.1 i).start = newOffs i then st
  else
    (updateList st.1 i { st.1 i with start := newOffs i },
      moveBits st.2 (getDeltaListByteStart (st.1 i) * 8)
        (getDeltaListByteStart { st.1 i with start := newOffs i } * 8)
        (getDeltaListByteSize { st.1 i with start := newOffs i } * 8))

/-- `rebalance_delta_zone` (`delta-index.c` lines 241-286): recursive
divide and conquer; the half that the middle list moves toward is
processed first so that no move overwrites bytes that are still to be
read. -/
def rebalanceDeltaZone (newOffs : Nat → Nat) (st : (Nat → DeltaList) × Mem)
    (first last : Nat) : (Nat → DeltaList) × Mem :=
  if last ≤ first then rebalanceMoveOne newOffs first st
  else
    if (st.1 ((first + last) / 2)).start < newOffs ((first + last) / 2) then
      rebalanceDeltaZone newOffs
        (rebalanceDeltaZone newOffs st ((first + last) / 2 + 1) last) first
        ((first + last) / 2)
    else
      rebalanceDeltaZone newOffs
        (rebalanceDeltaZone newOffs st first ((first + last) / 2))
        ((first + last) / 2 + 1) last
  termination_by last - first
  decreasing_by all_goals omega

/-- The space-accounting loop of `extend_delta_zone` and
`rebalance_lists`: the total byte size of all lists including both
guards. -/
def usedSpaceSum (z : DeltaZone) : Nat :=
  (List.range (z.listCount + 2)).foldl
    (fun acc i => acc + getDeltaListByteSize (z.lists i)) 0

/-- `extend_delta_zone` (`delta-index.c` lines 1754-1786): fail with
`UDS_OVERFLOW` when the lists plus the growing gap no longer fit,
otherwise compute the new offsets and rebalance lists `1` through
`list_count + 1` (the tail guard is included so its all-ones data is
carried along). -/
def extendDeltaZone (z : DeltaZone) (growingIndex growingSize : Nat) :
    Status × DeltaZone :=
  let usedSpace := growingSize + usedSpaceSum z
  if z.size < usedSpace then (Status.overflow, z)
  else
    let newOffs := computeNewListOffsets z growingIndex growingSize usedSpace
    let st := rebalanceDeltaZone newOffs (z.lists, z.memory) 1 (z.listCount + 1)
    (Status.success,
      { z with
        lists := st.1, memory := st.2, rebalanceCount := z.rebalanceCount + 1 })

/-! ### Insertion and deletion of bits -/

/-- The tail of `insert_bits` (`delta-index.c` lines 1849-1863): grow
the list by `size` bits at the entry offset, moving the shorter side of
the list (before the insertion point when `beforeFlag`). -/
def insertBitsMove (z : DeltaZone) (e : DeltaIndexEntry) (size : Nat)
    (beforeFlag : Bool) : Status × DeltaZone × DeltaIndexEntry :=
  let j := e.listNumber + 1
  let l := z.lists j
  if beforeFlag then
    let source := l.start
    let destination := source - size
    (Status.success,
      { z with
        lists := updateList z.lists j
          { l with start := l.start - size, size := l.size + size },
        memory := moveBits z.memory source destination e.offset }, e)
  else
    let source := l.start + e.offset
    let destination := source + size
    (Status.success,
      { z with
        lists := updateList z.lists j { l with size := l.size + size },
        memory := moveBits z.memory source destination (l.size - e.offset) }, e)

/-- `insert_bits` (`delta-index.c` lines 1788-1864): refuse with
`UDS_OVERFLOW` (incrementing the zone's overflow counter and marking the
entry) when the list would exceed `U16_MAX` bits; otherwise choose to
open the gap before or after the entry based on the free space around
the list and the amount of data to move, extending and rebalancing the
zone when neither neighbouring gap is large enough. -/
def insertBits (z : DeltaZone) (e : DeltaIndexEntry) (size : Nat) :
    Status × DeltaZone × DeltaIndexEntry :=
  let j := e.listNumber + 1
  let totalSize := (z.lists j).size
  let beforeSize := e.offset
  let afterSize := totalSize - e.offset
  if 65535 < totalSize + size then
    (Status.overflow, { z with overflowCount := z.overflowCount + 1 },
      { e with listOverflow := true })
  else
    let freeBefore := (z.lists j).start -
      ((z.lists (j - 1)).start + (z.lists (j - 1)).size)
    let freeAfter := (z.lists (j + 1)).start -
      ((z.lists j).start + (z.lists j).size)
    if size ≤ freeBefore ∧ size ≤ freeAfter then
      insertBitsMove z e size
        (if beforeSize < afterSize then true
          else if afterSize < beforeSize then false
          else freeAfter < freeBefore)
    else if size ≤ freeBefore then insertBitsMove z e size true
    else if size ≤ freeAfter then insertBitsMove z e size false
    else
      let beforeFlag := beforeSize < afterSize
      let growingIndex := if beforeFlag then e.listNumber + 1 else e.listNumber + 2
      match extendDeltaZone z growingIndex ((size + 7) / 8) with
      | (Status.success, z2) => insertBitsMove z2 e size beforeFlag
      | (st, z2) => (st, z2, e)

/-- `delete_bits` (`delta-index.c` lines 2008-2052): shrink the list by
`size` bits at the entry offset, moving the shorter side (preferring the
smaller free gap on a tie). -/
def deleteBits (z : DeltaZone) (e : DeltaIndexEntry) (size : Nat) : DeltaZone :=
  let j := e.listNumber + 1
  let l := z.lists j
  let totalSize := l.size
  let beforeSize := e.offset
  let afterSize := totalSize - e.offset - size
  let beforeFlag :=
    if beforeSize < afterSize then true
    else if afterSize < beforeSize then false
    else
      let freeBefore := l.start - ((z.lists (j - 1)).start + (z.lists (j - 1)).size)
      let freeAfter := (z.lists (j + 1)).start - (l.start + l.size)
      freeBefore < freeAfter
  if beforeFlag then
    let source := l.start
    let destination := source + size
    { z with
      lists := updateList z.lists j
        { l with start := l.start + size, size := l.size - size },
      memory := moveBits z.memory source destination beforeSize }
  else
    let destination := l.start + e.offset
    let source := destination + size
    { z with
      lists := updateList z.lists j { l with size := l.size - size },
      memory := moveBits z.memory source destination afterSize }

/-! ### Insertion and removal of entries -/

/-- The common tail of `put_delta_index_entry` (`delta-index.c` lines
2001-2005): encode the new entry and update the statistics. -/
def putFinishEncode (z : DeltaZone) (e : DeltaIndexEntry) (value : Nat)
    (name : Option (List Nat)) : Status × DeltaZone × DeltaIndexEntry :=
  let z2 := encodeEntry z e value name
  (Status.success,
    { z2 with
      recordCount := z2.recordCount + 1,
      collisionCount := z2.collisionCount + (if e.isCollision then 1 else 0) }, e)

/-- `put_delta_index_entry` (`delta-index.c` lines 1906-2006): create a
new entry at the position that `get_delta_index_entry` found. A
collision-on-collision returns `UDS_DUPLICATE_NAME`; a stale saved
offset is replaced by the insertion point; inserting before an existing
entry re-encodes that entry with its reduced delta. -/
def putDeltaIndexEntry (z : DeltaZone) (e : DeltaIndexEntry) (key value : Nat)
    (name : Option (List Nat)) : Status × DeltaZone × DeltaIndexEntry :=
  if e.isCollision then (Status.duplicateName, z, e)
  else
    let j := e.listNumber + 1
    let z :=
      if e.offset < (z.lists j).saveOffset then
        { z with
          lists := updateList z.lists j
            { z.lists j with saveKey := e.key - e.delta, saveOffset := e.offset } }
      else z
    match name with
    | some nm =>
      if e.atEnd then (Status.badState, z, e)
      else if key ≠ e.key then (Status.assertionFailed, z, e)
      else
        let e1 := setDeltaEntry z { e with offset := e.offset + e.entryBits } 0
        let e2 := { e1 with isCollision := true, entryBits := e1.entryBits + 256 }
        match insertBits z e2 e2.entryBits with
        | (Status.success, z2, e3) => putFinishEncode z2 e3 value (some nm)
        | (st, z2, e3) => (st, z2, e3)
    | none =>
      if e.atEnd then
        if key < e.key then (Status.assertionFailed, z, e)
        else
          let e1 := { setDeltaEntry z e (key - e.key) with key := key, atEnd := false }
          match insertBits z e1 e1.entryBits with
          | (Status.success, z2, e2) => putFinishEncode z2 e2 value none
          | (st, z2, e2) => (st, z2, e2)
      else if e.key ≤ key then (Status.assertionFailed, z, e)
      else if key < e.key - e.delta then (Status.assertionFailed, z, e)
      else
        let oldEntrySize := e.entryBits
        let nextValue := getDeltaEntryValue z e
        let eNew := { setDeltaEntry z e (key - (e.key - e.delta)) with key := key }
        let nextE :=
          { setDeltaEntry z e (e.key - key) with
            offset := e.offset + eNew.entryBits }
        let additional := eNew.entryBits + nextE.entryBits - oldEntrySize
        match insertBits z eNew additional with
        | (Status.success, z2, e2) =>
          putFinishEncode (encodeEntry z2 nextE nextValue none) e2 value none
        | (st, z2, e2) => (st, z2, e2)

/-- The common tail of `remove_delta_index_entry` (`delta-index.c` lines
2099-2110): update the statistics, return the following entry, and
invalidate the saved offset when it now lies past the removal point. -/
def removeFinish (z : DeltaZone) (resultEntry : DeltaIndexEntry) :
    Except Status (DeltaZone × DeltaIndexEntry) :=
  let z1 :=
    { z with recordCount := z.recordCount - 1, discardCount := z.discardCount + 1 }
  let j := resultEntry.listNumber + 1
  let z2 :=
    if resultEntry.offset < (z1.lists j).saveOffset then
      { z1 with
        lists := updateList z1.lists j
          { z1.lists j with saveKey := 0, saveOffset := 0 } }
    else z1
  Except.ok (z2, resultEntry)

/-- `remove_delta_index_entry` (`delta-index.c` lines 2054-2111): delete
the entry that `get_delta_index_entry` found; removing a non-collision
entry that is followed by another entry re-encodes the follower with the
combined delta. -/
def removeDeltaIndexEntry (z : DeltaZone) (e : DeltaIndexEntry) (dfuel : Nat) :
    Except Status (DeltaZone × DeltaIndexEntry) :=
  match nextDeltaIndexEntry z e dfuel with
  | Except.error st => Except.error st
  | Except.ok nextE =>
    if e.isCollision then
      let z1 :=
        { deleteBits z e e.entryBits with collisionCount := z.collisionCount - 1 }
      removeFinish z1 { nextE with offset := e.offset }
    else if nextE.atEnd then
      let z1 := deleteBits z e e.entryBits
      removeFinish z1 { nextE with key := nextE.key - e.delta, offset := e.offset }
    else
      let nextValue := getDeltaEntryValue z nextE
      let oldSize := e.entryBits + nextE.entryBits
      let collFix := nextE.isCollision
      let z1 := if collFix then { z with collisionCount := z.collisionCount - 1 } else z
      let nextE1 := if collFix then { nextE with isCollision := false } else nextE
      let nextE2 :=
        { setDeltaEntry z1 nextE1 (e.delta + nextE1.delta) with offset := e.offset }
      let z2 := deleteBits z1 e (oldSize - nextE2.entryBits)
      let z3 := encodeEntry z2 nextE2 nextValue none
      removeFinish z3 nextE2

/-! ## Claim C3: the delta-list size limit -/

/-- C3: if an insertion of `size` bits would make a delta list's bit
stream exceed `2^16 - 1` bits, `insert_bits` fails with `UDS_OVERFLOW`,
the zone's overflow counter is incremented and the entry is marked, and
nothing else changes: every list (contents, size and start offset) and
the zone memory are left exactly as they were. -/
theorem C3_insert_bits_overflow (z : DeltaZone) (e : DeltaIndexEntry) (size : Nat)
    (h : 2 ^ 16 - 1 < (z.lists (e.listNumber + 1)).size + size) :
    (insertBits z e size).1 = Status.overflow ∧
    (insertBits z e size).2.1.overflowCount = z.overflowCount + 1 ∧
    (insertBits z e size).2.1.lists = z.lists ∧
    (insertBits z e size).2.1.memory = z.memory ∧
    (insertBits z e size).2.1.recordCount = z.recordCount ∧
    (insertBits z e size).2.2.listOverflow = true := by
  have h2 : 65535 < (z.lists (e.listNumber + 1)).size + size := by omega
  unfold insertBits
  rw [if_pos h2]
  exact ⟨rfl, rfl, rfl, rfl, rfl, rfl⟩

/-- C3 (witness): a list of 60000 bits rejects a 10000-bit insertion,
leaving the zone untouched. -/
theorem C3_witness :
    (insertBits
        ⟨fun _ => false, 65536, fun _ => ⟨0, 60000, 0, 0⟩, 1, ⟨3, 5, 3⟩, 8,
          0, 0, 0, 0, 0⟩
        ⟨0, 0, 0, 0, false, false, false, 0⟩ 10000).1 = Status.overflow ∧
    (insertBits
        ⟨fun _ => false, 65536, fun _ => ⟨0, 60000, 0, 0⟩, 1, ⟨3, 5, 3⟩, 8,
          0, 0, 0, 0, 0⟩
        ⟨0, 0, 0, 0, false, false, false, 0⟩ 10000).2.1.overflowCount = 1 := by
  have h := C3_insert_bits_overflow
    ⟨fun _ => false, 65536, fun _ => ⟨0, 60000, 0, 0⟩, 1, ⟨3, 5, 3⟩, 8,
      0, 0, 0, 0, 0⟩
    ⟨0, 0, 0, 0, false, false, false, 0⟩ 10000 (by norm_num)
  exact ⟨h.1, h.2.1⟩

/-! ## Claim C2: mutable store insert / search / remove

The property-test scenario of the spec: a freshly reset one-list zone
(64 KiB of memory, so the single list starts at bit 262116 with the tail
guard at bit 524232), on which entries are inserted, found and removed
through `get_delta_index_entry`, `put_delta_index_entry` and
`remove_delta_index_entry`. -/

/-- A one-list delta zone as `initialize_delta_index` with
`zone_count = 1`, `list_count = 1` and 64 KiB of zone memory produces
(after `reset_delta_index`). -/
def mkOneListZone (c : CodingConstants) (vb : Nat) (m0 : Mem) : DeltaZone :=
  resetDeltaZone ⟨m0, 65536, fun _ => ⟨0, 0, 0, 0⟩, 1, c, vb, 0, 0, 0, 0, 0⟩

/-- The shape of a one-list zone: guard lists in their reset positions,
the single real list equal to `l1`, and the zone memory equal to `m`. -/
structure OneListShape (z : DeltaZone) (c : CodingConstants) (vb : Nat)
    (l1 : DeltaList) (m : Mem) : Prop where
  listCount : z.listCount = 1
  size : z.size = 65536
  consts : z.c = c
  valueBits : z.valueBits = vb
  head : z.lists 0 = ⟨0, 0, 0, 0⟩
  list1 : z.lists 1 = l1
  tail : z.lists 2 = ⟨524232, 56, 0, 0⟩
  memory : z.memory = m

/-- `insert(k, v)` as the callers perform it: position with
`get_delta_index_entry`, then `put_delta_index_entry`. -/
def deltaIndexInsert (z : DeltaZone) (listNumber key value dfuel lfuel : Nat) :
    Except Status DeltaZone :=
  match getDeltaIndexEntry z listNumber key [] dfuel lfuel with
  | Except.error st => Except.error st
  | Except.ok (z1, e) =>
    match putDeltaIndexEntry z1 e key value none with
    | (Status.success, z2, _) => Except.ok z2
    | (st, _, _) => Except.error st

/-- `search(k)`: `get_delta_index_entry`. -/
def deltaIndexSearch (z : DeltaZone) (listNumber key dfuel lfuel : Nat) :
    Except Status (DeltaZone × DeltaIndexEntry) :=
  getDeltaIndexEntry z listNumber key [] dfuel lfuel

/-- `remove(k)`: position with `get_delta_index_entry`, then
`remove_delta_index_entry`. -/
def deltaIndexRemove (z : DeltaZone) (listNumber key dfuel lfuel : Nat) :
    Except Status DeltaZone :=
  match getDeltaIndexEntry z listNumber key [] dfuel lfuel with
  | Except.error st => Except.error st
  | Except.ok (z1, e) =>
    match removeDeltaIndexEntry z1 e dfuel with
    | Except.error st => Except.error st
    | Except.ok (z2, _) => Except.ok z2

@[simp] theorem updateList_same (ls : Nat → DeltaList) (i : Nat) (l : DeltaList) :
    updateList ls i l i = l := by
  simp [updateList]

theorem updateList_other (ls : Nat → DeltaList) (i j : Nat) (l : DeltaList)
    (h : j ≠ i) : updateList ls i l j = ls j := by
  simp [updateList, h]

/-- The iterator state at the end of an empty list. -/
def endEntry : DeltaIndexEntry := ⟨0, 0, 0, 0, true, false, false, 0⟩

theorem mkOneListZone_shape (c : CodingConstants) (vb : Nat) (m0 : Mem) :
    OneListShape (mkOneListZone c vb m0) c vb ⟨262116, 0, 0, 0⟩
      (fun b => if 524232 ≤ b ∧ b < 524288 then true else m0 b) := by
  refine ⟨rfl, rfl, rfl, rfl, ?_, ?_, ?_, ?_⟩
  · simp only [mkOneListZone, resetDeltaZone] <;> norm_num
  · simp only [mkOneListZone, resetDeltaZone] <;> norm_num
  · simp only [mkOneListZone, resetDeltaZone] <;> norm_num
  · funext b
    simp only [mkOneListZone, resetDeltaZone] <;> norm_num


/-- The zone after `remember_delta_index_offset` stored position (0, 0)
into list 1. -/
def setSaveZero (z : DeltaZone) : DeltaZone :=
  { z with
    lists := updateList z.lists 1 { z.lists 1 with saveKey := 0, saveOffset := 0 } }

theorem setSaveZero_shape {z : DeltaZone} {c : CodingConstants} {vb : Nat} {m : Mem}
    {s sz : Nat} (hs : OneListShape z c vb ⟨s, sz, 0, 0⟩ m) :
    OneListShape (setSaveZero z) c vb ⟨s, sz, 0, 0⟩ m := by
  obtain ⟨hc, hsize, hcc, hvb, h0, h1, h2, hm⟩ := hs
  refine ⟨hc, hsize, hcc, hvb, ?_, ?_, ?_, hm⟩
  · show updateList z.lists 1 { z.lists 1 with saveKey := 0, saveOffset := 0 } 0 = _
    rw [updateList_other _ _ _ _ (by norm_num), h0]
  · show updateList z.lists 1 { z.lists 1 with saveKey := 0, saveOffset := 0 } 1 = _
    rw [updateList_same, h1]
  · show updateList z.lists 1 { z.lists 1 with saveKey := 0, saveOffset := 0 } 2 = _
    rw [updateList_other _ _ _ _ (by norm_num), h2]

/-- Searching an empty one-list zone ends at once at the end of the
list; only the list's saved position is (vacuously) rewritten. -/
theorem search_empty {z : DeltaZone} {c : CodingConstants} {vb : Nat} {m : Mem}
    {s k d w : Nat} (hs : OneListShape z c vb ⟨s, 0, 0, 0⟩ m) :
    getDeltaIndexEntry z 0 k [] d (w + 1) =
      Except.ok (setSaveZero z, endEntry) ∧
    OneListShape (setSaveZero z) c vb ⟨s, 0, 0, 0⟩ m := by
  obtain ⟨hc, hsz, hcc, hvb, h0, h1, h2, hm⟩ := hs
  have e0eq : startDeltaIndexSearch z 0 k =
      Except.ok ⟨0, 0, 0, 0, false, false, false, 0⟩ := by
    unfold startDeltaIndexSearch
    rw [hc, if_neg (by norm_num), show (0 : Nat) + 1 = 1 from rfl, h1]
    simp
  have hnext : nextDeltaIndexEntry z ⟨0, 0, 0, 0, false, false, false, 0⟩ d =
      Except.ok endEntry := by
    unfold nextDeltaIndexEntry
    simp only [show (0 : Nat) + 1 = 1 from rfl, h1, endEntry]
    norm_num
  have hloop : searchLoop z k ⟨0, 0, 0, 0, false, false, false, 0⟩ d (w + 1) =
      Except.ok endEntry := by
    unfold searchLoop
    rw [hnext]
    simp [endEntry]
  have hrem : rememberDeltaIndexOffset z endEntry = Except.ok (setSaveZero z) := by
    unfold rememberDeltaIndexOffset
    simp [endEntry, setSaveZero]
  constructor
  · unfold getDeltaIndexEntry
    simp only [e0eq, hloop, hrem]
    simp [endEntry]
  · exact setSaveZero_shape ⟨hc, hsz, hcc, hvb, h0, h1, h2, hm⟩

/-- Inserting `sz ≤ 65535` bits into the empty list of a one-list zone
takes the no-move path: both neighbouring gaps (262116 bits each) are
large enough, nothing needs to be moved, and only the list size grows. -/
theorem insertBits_empty {z : DeltaZone} {c : CodingConstants} {vb : Nat} {m : Mem}
    (hs : OneListShape z c vb ⟨262116, 0, 0, 0⟩ m) (e : DeltaIndexEntry)
    (hln : e.listNumber = 0) (hoff : e.offset = 0) (sz : Nat) (hsz : sz ≤ 65535) :
    insertBits z e sz =
      (Status.success,
        { z with lists := updateList z.lists 1 ⟨262116, sz, 0, 0⟩ }, e) := by
  obtain ⟨hc, hsize, hcc, hvb, h0, h1, h2, hm⟩ := hs
  unfold insertBits
  rw [hln]
  norm_num [h0, h1, h2]
  rw [if_neg (by omega), if_pos (by omega)]
  unfold insertBitsMove
  rw [hln]
  norm_num [h1]
  exact moveBits_zero _ _ _

theorem encodeDelta_out_below {c : CodingConstants} {delta : Nat} {m : Mem}
    {off x : Nat} (h : x < off) : encodeDelta c delta m off x = m x := by
  unfold encodeDelta
  split
  · exact setBits_out (Or.inl h)
  · rw [setBits_out (Or.inl (Nat.lt_of_lt_of_le h
        (Nat.le_trans (Nat.le_add_right off c.minBits) (Nat.le_add_right _ _)))),
      setZero_out (Or.inl (Nat.lt_of_lt_of_le h (Nat.le_add_right off c.minBits))),
      setBits_out (Or.inl h)]

/-- `put_delta_index_entry` of key `k` and value `v` on the at-end
iterator of the empty one-list zone: the entry is appended, the list
grows to `value_bits + deltaCodeLength` bits, and the memory now holds
the payload followed by the delta code at the list start. -/
theorem put_empty {z : DeltaZone} {c : CodingConstants} {vb : Nat} {m : Mem}
    {k v : Nat} (hs : OneListShape z c vb ⟨262116, 0, 0, 0⟩ m)
    (hincr : 1 ≤ c.incrKeys) (hnw : c.minKeys ≤ c.incrKeys + k)
    (heb : vb + deltaCodeLength c k ≤ 65535) :
    (putDeltaIndexEntry z endEntry k v none).1 = Status.success ∧
    OneListShape (putDeltaIndexEntry z endEntry k v none).2.1 c vb
      ⟨262116, vb + deltaCodeLength c k, 0, 0⟩
      (encodeDelta c k (setBits v m 262116 vb) (262116 + vb)) ∧
    (putDeltaIndexEntry z endEntry k v none).2.1.recordCount = z.recordCount + 1 := by
  obtain ⟨hc, hsize, hcc, hvb, h0, h1, h2, hm⟩ := hs
  have hshape : OneListShape z c vb ⟨262116, 0, 0, 0⟩ m :=
    ⟨hc, hsize, hcc, hvb, h0, h1, h2, hm⟩
  have hkb : setDeltaKeyBits c k = deltaCodeLength c k :=
    setDeltaKeyBits_eq_deltaCodeLength hincr hnw
  have hput : putDeltaIndexEntry z endEntry k v none =
      putFinishEncode
        { z with
          lists := updateList z.lists 1 ⟨262116, vb + deltaCodeLength c k, 0, 0⟩ }
        ⟨k, k, 0, vb + deltaCodeLength c k, false, false, false, 0⟩ v none := by
    unfold putDeltaIndexEntry
    simp only [endEntry, setDeltaEntry, hvb, hcc, hkb]
    norm_num [h1]
    simp only [hvb, hcc, hkb]
    rw [insertBits_empty hshape
      ⟨k, k, 0, vb + deltaCodeLength c k, false, false, false, 0⟩ rfl rfl _ heb]
    rw [hcc, hvb]
  rw [hput]
  refine ⟨rfl, ⟨?_, ?_, ?_, ?_, ?_, ?_, ?_, ?_⟩, rfl⟩
  · exact hc
  · exact hsize
  · exact hcc
  · exact hvb
  · show updateList z.lists 1 ⟨262116, vb + deltaCodeLength c k, 0, 0⟩ 0 = _
    rw [updateList_other _ _ _ _ (by norm_num), h0]
  · show updateList z.lists 1 ⟨262116, vb + deltaCodeLength c k, 0, 0⟩ 1 = _
    rw [updateList_same]
  · show updateList z.lists 1 ⟨262116, vb + deltaCodeLength c k, 0, 0⟩ 2 = _
    rw [updateList_other _ _ _ _ (by norm_num), h2]
  · show encodeDelta z.c k
        (setBits v z.memory
          ((updateList z.lists 1 ⟨262116, vb + deltaCodeLength c k, 0, 0⟩ 1).start + 0)
          z.valueBits)
        ((updateList z.lists 1 ⟨262116, vb + deltaCodeLength c k, 0, 0⟩ 1).start + 0 +
          z.valueBits) = _
    rw [updateList_same, hcc, hvb, hm]

theorem minBits_le_deltaCodeLength (c : CodingConstants) (delta : Nat) :
    c.minBits ≤ deltaCodeLength c delta := by
  unfold deltaCodeLength
  split
  · exact Nat.le_refl _
  · exact Nat.le_trans (Nat.le_add_right _ _) (Nat.le_add_right _ _)

/-- The iterator state on the single entry `(k, v)` of the one-entry
zone. -/
def foundEntry (c : CodingConstants) (vb k : Nat) : DeltaIndexEntry :=
  ⟨k, k, 0, vb + deltaCodeLength c k, false, false, false, 0⟩

/-- The zone memory after the single entry `(k, v)` was encoded at the
list start. -/
def oneEntryMem (c : CodingConstants) (vb k v : Nat) (m : Mem) : Mem :=
  encodeDelta c k (setBits v m 262116 vb) (262116 + vb)

/-- Searching the one-entry zone for its key finds the entry: the
decoded key and the stored value are the ones that were inserted. -/
theorem search_single {z : DeltaZone} {c : CodingConstants} {vb : Nat} {m : Mem}
    {k v d w : Nat}
    (hs : OneListShape z c vb ⟨262116, vb + deltaCodeLength c k, 0, 0⟩
      (oneEntryMem c vb k v m))
    (hsum : c.minKeys + c.incrKeys = 2 ^ c.minBits)
    (hincr : 1 ≤ c.incrKeys) (hmb : 1 ≤ c.minBits) (hv : v < 2 ^ vb)
    (hdf : (k - c.minKeys) / c.incrKeys < d) :
    getDeltaIndexEntry z 0 k [] d (w + 1) =
      Except.ok (setSaveZero z, foundEntry c vb k) ∧
    getDeltaEntryValue (setSaveZero z) (foundEntry c vb k) = v ∧
    OneListShape (setSaveZero z) c vb ⟨262116, vb + deltaCodeLength c k, 0, 0⟩
      (oneEntryMem c vb k v m) := by
  obtain ⟨hc, hsize, hcc, hvb, h0, h1, h2, hm⟩ := hs
  have hdcl : 1 ≤ deltaCodeLength c k :=
    Nat.le_trans hmb (minBits_le_deltaCodeLength c k)
  have e0eq : startDeltaIndexSearch z 0 k =
      Except.ok ⟨0, 0, 0, 0, false, false, false, 0⟩ := by
    unfold startDeltaIndexSearch
    rw [hc, if_neg (by norm_num), show (0 : Nat) + 1 = 1 from rfl, h1]
    simp
  have hdec : decodeDeltaCode z.c z.memory (262116 + 0 + z.valueBits) d =
      some (k, deltaCodeLength c k) := by
    rw [hcc, hvb, hm]
    show decodeDeltaCode c (oneEntryMem c vb k v m) (262116 + vb) d = _
    exact decode_encode _ _ _ _ hsum hincr hdf
  have hnext : nextDeltaIndexEntry z ⟨0, 0, 0, 0, false, false, false, 0⟩ d =
      Except.ok (foundEntry c vb k) := by
    unfold nextDeltaIndexEntry
    simp only [show (0 : Nat) + 1 = 1 from rfl, h1]
    rw [if_neg (by simp), if_neg (by simp; omega)]
    unfold decodeDeltaEntry
    simp only [show (0 : Nat) + 1 = 1 from rfl, h1]
    norm_num at hdec ⊢
    rw [hdec]
    simp only [foundEntry, hvb]
    norm_num
  have hloop : searchLoop z k ⟨0, 0, 0, 0, false, false, false, 0⟩ d (w + 1) =
      Except.ok (foundEntry c vb k) := by
    unfold searchLoop
    rw [hnext]
    simp [foundEntry]
  have hrem : rememberDeltaIndexOffset z (foundEntry c vb k) =
      Except.ok (setSaveZero z) := by
    unfold rememberDeltaIndexOffset
    simp [foundEntry, setSaveZero, Nat.sub_self]
  have hshape2 : OneListShape (setSaveZero z) c vb
      ⟨262116, vb + deltaCodeLength c k, 0, 0⟩ (oneEntryMem c vb k v m) :=
    setSaveZero_shape ⟨hc, hsize, hcc, hvb, h0, h1, h2, hm⟩
  have hcoll : collisionLoop (setSaveZero z) [] (foundEntry c vb k) (foundEntry c vb k)
      d (w + 1) = Except.ok (foundEntry c vb k) := by
    unfold collisionLoop
    have hnext2 : nextDeltaIndexEntry (setSaveZero z) (foundEntry c vb k) d =
        Except.ok { foundEntry c vb k with
          offset := vb + deltaCodeLength c k, atEnd := true, delta := 0,
          isCollision := false } := by
      unfold nextDeltaIndexEntry
      simp only [foundEntry, show (0 : Nat) + 1 = 1 from rfl, hshape2.list1]
      norm_num
    rw [hnext2]
    simp
  refine ⟨?_, ?_, hshape2⟩
  · unfold getDeltaIndexEntry
    simp only [e0eq, hloop, hrem]
    rw [if_pos (by simp [foundEntry])]
    simp only [hcoll]
  · show getBits (setSaveZero z).memory (((setSaveZero z).lists 1).start + 0)
      (setSaveZero z).valueBits = v
    rw [hshape2.memory, hshape2.list1, hshape2.valueBits]
    show getBits (oneEntryMem c vb k v m) (262116 + 0) vb = v
    norm_num
    unfold oneEntryMem
    rw [getBits_congr fun i hi =>
      encodeDelta_out_below (show 262116 + i < 262116 + vb by omega)]
    exact getBits_setBits hv

/-- `remove_delta_index_entry` of the single entry of the one-entry
zone: the end-of-list branch runs, the list shrinks back to empty, and
the record count drops. -/
theorem remove_single {z : DeltaZone} {c : CodingConstants} {vb : Nat} {mm : Mem}
    {k d : Nat}
    (hs : OneListShape z c vb ⟨262116, vb + deltaCodeLength c k, 0, 0⟩ mm) :
    ∃ z' e', removeDeltaIndexEntry z (foundEntry c vb k) d = Except.ok (z', e') ∧
      OneListShape z' c vb ⟨262116, 0, 0, 0⟩ mm ∧
      z'.recordCount = z.recordCount - 1 ∧
      z'.discardCount = z.discardCount + 1 ∧
      e'.atEnd = true := by
  obtain ⟨hc, hsize, hcc, hvb, h0, h1, h2, hm⟩ := hs
  have hnext : nextDeltaIndexEntry z (foundEntry c vb k) d =
      Except.ok ⟨k, 0, vb + deltaCodeLength c k, vb + deltaCodeLength c k,
        true, false, false, 0⟩ := by
    unfold nextDeltaIndexEntry
    simp only [foundEntry, show (0 : Nat) + 1 = 1 from rfl, h1]
    norm_num
  have hdel : deleteBits z (foundEntry c vb k) (vb + deltaCodeLength c k) =
      { z with lists := updateList z.lists 1 ⟨262116, 0, 0, 0⟩ } := by
    unfold deleteBits
    simp only [foundEntry, show (0 : Nat) + 1 = 1 from rfl, h0, h1, h2]
    norm_num [Nat.sub_self]
    split
    · rename_i hcond
      exact absurd hcond (by omega)
    · norm_num [Nat.sub_self, moveBits_zero]
  have hrun : removeDeltaIndexEntry z (foundEntry c vb k) d =
      Except.ok
        ({ z with
            lists := updateList z.lists 1 ⟨262116, 0, 0, 0⟩,
            recordCount := z.recordCount - 1,
            discardCount := z.discardCount + 1 },
          ⟨k - k, 0, 0, vb + deltaCodeLength c k, true, false, false, 0⟩) := by
    unfold removeDeltaIndexEntry
    rw [hnext]
    show (if (foundEntry c vb k).isCollision = true then _ else _) = _
    rw [if_neg (by simp [foundEntry])]
    show (if true = true then _ else _) = _
    rw [if_pos rfl]
    show removeFinish (deleteBits z (foundEntry c vb k) (foundEntry c vb k).entryBits)
      ⟨k - (foundEntry c vb k).delta, 0, (foundEntry c vb k).offset,
        vb + deltaCodeLength c k, true, false, false, 0⟩ = _
    rw [show (foundEntry c vb k).entryBits = vb + deltaCodeLength c k from rfl, hdel]
    unfold removeFinish
    norm_num [foundEntry]
  refine ⟨_, _, hrun, ⟨?_, ?_, ?_, ?_, ?_, ?_, ?_, ?_⟩, rfl, rfl, rfl⟩
  · exact hc
  · exact hsize
  · exact hcc
  · exact hvb
  · show updateList z.lists 1 ⟨262116, 0, 0, 0⟩ 0 = _
    rw [updateList_other _ _ _ _ (by norm_num), h0]
  · show updateList z.lists 1 ⟨262116, 0, 0, 0⟩ 1 = _
    rw [updateList_same]
  · show updateList z.lists 1 ⟨262116, 0, 0, 0⟩ 2 = _
    rw [updateList_other _ _ _ _ (by norm_num), h2]
  · exact hm

/-- C2: in the mutable delta store (a freshly reset one-list delta
zone), `put_delta_index_entry` of `(k, v)` followed by
`get_delta_index_entry` for `k` finds an entry with key `k` whose stored
value is `v`; `remove_delta_index_entry` of that entry followed by a
search for `k` reports the end of the list (not present); and insert,
remove, then insert of the same key makes a subsequent search return the
latest value. The hypotheses are the well-formedness of the coding
constants (`min_keys + incr_keys = 2^min_bits`, `incr_keys ≥ 1`,
`min_bits ≥ 1`, and `min_keys ≤ incr_keys + k`, the domain on which
`set_delta`'s unsigned arithmetic does not wrap), values that fit the
payload width, and an entry that fits the 16-bit list size. -/
theorem C2_store_insert_search_remove
    (c : CodingConstants) (vb k v v2 : Nat) (m0 : Mem)
    (hsum : c.minKeys + c.incrKeys = 2 ^ c.minBits)
    (hincr : 1 ≤ c.incrKeys) (hmb : 1 ≤ c.minBits)
    (hnw : c.minKeys ≤ c.incrKeys + k)
    (hv : v < 2 ^ vb) (hv2 : v2 < 2 ^ vb)
    (heb : vb + deltaCodeLength c k ≤ 65535) :
    ∃ z1 z2 z3 z4 z5 z6,
      deltaIndexInsert (mkOneListZone c vb m0) 0 k v (k + 1) 2 = Except.ok z1 ∧
      deltaIndexSearch z1 0 k (k + 1) 2 = Except.ok (z2, foundEntry c vb k) ∧
      (foundEntry c vb k).key = k ∧ (foundEntry c vb k).atEnd = false ∧
      getDeltaEntryValue z2 (foundEntry c vb k) = v ∧
      deltaIndexRemove z2 0 k (k + 1) 2 = Except.ok z3 ∧
      z3.recordCount = z2.recordCount - 1 ∧
      deltaIndexSearch z3 0 k (k + 1) 2 = Except.ok (z4, endEntry) ∧
      endEntry.atEnd = true ∧
      deltaIndexInsert z4 0 k v2 (k + 1) 2 = Except.ok z5 ∧
      deltaIndexSearch z5 0 k (k + 1) 2 = Except.ok (z6, foundEntry c vb k) ∧
      getDeltaEntryValue z6 (foundEntry c vb k) = v2 := by
  have hdf : (k - c.minKeys) / c.incrKeys < k + 1 :=
    Nat.lt_succ_of_le (Nat.le_trans (Nat.div_le_self _ _) (Nat.sub_le _ _))
  have hshape0 := mkOneListZone_shape c vb m0
  -- insert (k, v)
  have hse0 := search_empty (k := k) (d := k + 1) (w := 1) hshape0
  have hget0 : getDeltaIndexEntry (mkOneListZone c vb m0) 0 k [] (k + 1) 2 =
      Except.ok (setSaveZero (mkOneListZone c vb m0), endEntry) := hse0.1
  have hput1 := put_empty (v := v) hse0.2 hincr hnw heb
  have hins1 : deltaIndexInsert (mkOneListZone c vb m0) 0 k v (k + 1) 2 =
      Except.ok
        (putDeltaIndexEntry (setSaveZero (mkOneListZone c vb m0)) endEntry k v
          none).2.1 := by
    unfold deltaIndexInsert
    simp only [hget0]
    have hsplit : putDeltaIndexEntry (setSaveZero (mkOneListZone c vb m0)) endEntry
        k v none =
        (Status.success,
          (putDeltaIndexEntry (setSaveZero (mkOneListZone c vb m0)) endEntry k v
            none).2.1,
          (putDeltaIndexEntry (setSaveZero (mkOneListZone c vb m0)) endEntry k v
            none).2.2) := by
      rw [← hput1.1]
    rw [hsplit]
  -- search finds (k, v)
  have hss1 := search_single (d := k + 1) (w := 1) (v := v) (m := _)
    hput1.2.1 hsum hincr hmb hv hdf
  have hget1 : deltaIndexSearch
      (putDeltaIndexEntry (setSaveZero (mkOneListZone c vb m0)) endEntry k v
        none).2.1 0 k (k + 1) 2 =
      Except.ok
        (setSaveZero (putDeltaIndexEntry (setSaveZero (mkOneListZone c vb m0))
          endEntry k v none).2.1, foundEntry c vb k) := hss1.1
  -- remove: the remove operation re-searches, then deletes the entry
  have hsearch2 := search_single (d := k + 1) (w := 1) (v := v) (m := _)
    hss1.2.2 hsum hincr hmb hv hdf
  obtain ⟨z3, e3, hrem3, hshape3, hrc3, hdc3, hae3⟩ :=
    remove_single (d := k + 1) hsearch2.2.2
  have hremrun : deltaIndexRemove
      (setSaveZero (putDeltaIndexEntry (setSaveZero (mkOneListZone c vb m0)) endEntry
        k v none).2.1) 0 k (k + 1) 2 = Except.ok z3 := by
    unfold deltaIndexRemove
    have hget2 : getDeltaIndexEntry
        (setSaveZero (putDeltaIndexEntry (setSaveZero (mkOneListZone c vb m0))
          endEntry k v none).2.1) 0 k [] (k + 1) 2 =
        Except.ok
          (setSaveZero (setSaveZero (putDeltaIndexEntry
            (setSaveZero (mkOneListZone c vb m0)) endEntry k v none).2.1),
            foundEntry c vb k) := hsearch2.1
    simp only [hget2, hrem3]
  -- the search after the removal finds nothing
  have hse3 := search_empty (k := k) (d := k + 1) (w := 1) hshape3
  have hget3 : deltaIndexSearch z3 0 k (k + 1) 2 =
      Except.ok (setSaveZero z3, endEntry) := hse3.1
  -- insert (k, v2)
  have hse4 := search_empty (k := k) (d := k + 1) (w := 1) hse3.2
  have hget4 : getDeltaIndexEntry (setSaveZero z3) 0 k [] (k + 1) 2 =
      Except.ok (setSaveZero (setSaveZero z3), endEntry) := hse4.1
  have hput2 := put_empty (v := v2) hse4.2 hincr hnw heb
  have hins2 : deltaIndexInsert (setSaveZero z3) 0 k v2 (k + 1) 2 =
      Except.ok
        (putDeltaIndexEntry (setSaveZero (setSaveZero z3)) endEntry k v2
          none).2.1 := by
    unfold deltaIndexInsert
    simp only [hget4]
    have hsplit : putDeltaIndexEntry (setSaveZero (setSaveZero z3)) endEntry
        k v2 none =
        (Status.success,
          (putDeltaIndexEntry (setSaveZero (setSaveZero z3)) endEntry k v2
            none).2.1,
          (putDeltaIndexEntry (setSaveZero (setSaveZero z3)) endEntry k v2
            none).2.2) := by
      rw [← hput2.1]
    rw [hsplit]
  -- the final search finds (k, v2)
  have hss2 := search_single (d := k + 1) (w := 1) (v := v2) (m := _)
    hput2.2.1 hsum hincr hmb hv2 hdf
  have hget5 : deltaIndexSearch
      (putDeltaIndexEntry (setSaveZero (setSaveZero z3)) endEntry k v2
        none).2.1 0 k (k + 1) 2 =
      Except.ok
        (setSaveZero (putDeltaIndexEntry (setSaveZero (setSaveZero z3))
          endEntry k v2 none).2.1, foundEntry c vb k) := hss2.1
  exact ⟨_, _, z3, _, _, _, hins1, hget1, rfl, rfl, hss1.2.1, hremrun, hrc3,
    hget3, rfl, hins2, hget5, hss2.2.1⟩


theorem C2_witness :
    (314 + 710 = 2 ^ 10 ∧ 1 ≤ 710 ∧ 1 ≤ 10 ∧ 314 ≤ 710 + 400 ∧
      77 < 2 ^ 8 ∧ 200 < 2 ^ 8 ∧
      8 + deltaCodeLength ⟨10, 314, 710⟩ 400 ≤ 65535) ∧
    ∃ z1 z2 z3 z4 z5 z6,
      deltaIndexInsert (mkOneListZone ⟨10, 314, 710⟩ 8 (fun _ => false)) 0 400 77
        401 2 = Except.ok z1 ∧
      deltaIndexSearch z1 0 400 401 2 =
        Except.ok (z2, foundEntry ⟨10, 314, 710⟩ 8 400) ∧
      (foundEntry ⟨10, 314, 710⟩ 8 400).key = 400 ∧
      (foundEntry ⟨10, 314, 710⟩ 8 400).atEnd = false ∧
      getDeltaEntryValue z2 (foundEntry ⟨10, 314, 710⟩ 8 400) = 77 ∧
      deltaIndexRemove z2 0 400 401 2 = Except.ok z3 ∧
      z3.recordCount = z2.recordCount - 1 ∧
      deltaIndexSearch z3 0 400 401 2 = Except.ok (z4, endEntry) ∧
      endEntry.atEnd = true ∧
      deltaIndexInsert z4 0 400 200 401 2 = Except.ok z5 ∧
      deltaIndexSearch z5 0 400 401 2 =
        Except.ok (z6, foundEntry ⟨10, 314, 710⟩ 8 400) ∧
      getDeltaEntryValue z6 (foundEntry ⟨10, 314, 710⟩ 8 400) = 200 :=
  ⟨⟨by decide, by decide, by decide, by decide, by decide, by decide, by decide⟩,
    C2_store_insert_search_remove ⟨10, 314, 710⟩ 8 400 77 200 (fun _ => false)
      (by decide) (by decide) (by decide) (by decide) (by decide) (by decide)
      (by decide)⟩

/-! ### Rebalancing preservation (C4) -/

/-- Sum of `f k` over `k < n`. -/
def sumTo (f : Nat → Nat) : Nat → Nat
  | 0 => 0
  | n + 1 => sumTo f n + f n

theorem foldl_add_eq_sumTo (f : Nat → Nat) :
    ∀ n a, (List.range n).foldl (fun acc i => acc + f i) a = a + sumTo f n := by
  intro n
  induction n with
  | zero => intro a; simp [sumTo]
  | succ n ih =>
    intro a
    rw [List.range_succ, List.foldl_append]
    simp only [List.foldl_cons, List.foldl_nil, ih, sumTo]
    omega

theorem usedSpaceSum_eq (z : DeltaZone) :
    usedSpaceSum z =
      sumTo (fun k => getDeltaListByteSize (z.lists k)) (z.listCount + 2) := by
  unfold usedSpaceSum
  rw [foldl_add_eq_sumTo]
  exact Nat.zero_add _

/-- Chaining consecutive disjointness `f i + g i ≤ f (i+1)` along a range. -/
theorem addChain_le (f g : Nat → Nat) (a b : Nat)
    (h : ∀ i, a ≤ i → i < b → f i + g i ≤ f (i + 1)) :
    ∀ i j, a ≤ i → i ≤ j → j ≤ b → f i + g i ≤ f j + g j := by
  intro i j hai hij
  induction j, hij using Nat.le_induction with
  | base => intro _; exact Nat.le_refl _
  | succ j hij ih =>
    intro hjb
    exact Nat.le_trans (ih (by omega))
      (Nat.le_trans (h j (by omega) (by omega)) (Nat.le_add_right _ _))

theorem addChain_mono (f g : Nat → Nat) (a b : Nat)
    (h : ∀ i, a ≤ i → i < b → f i + g i ≤ f (i + 1)) :
    ∀ i j, a ≤ i → i ≤ j → j ≤ b → f i ≤ f j := by
  intro i j hai hij
  induction j, hij using Nat.le_induction with
  | base => intro _; exact Nat.le_refl _
  | succ j hij ih =>
    intro hjb
    exact Nat.le_trans (ih (by omega))
      (Nat.le_trans (Nat.le_add_right _ _) (h j (by omega) (by omega)))

/-- Two reads of the same length return the same value when the two
windows hold the same bits. -/
theorem getBits_congr2 {m1 m2 : Mem} {o1 o2 size : Nat}
    (h : ∀ i, i < size → m1 (o1 + i) = m2 (o2 + i)) :
    getBits m1 o1 size = getBits m2 o2 size := by
  induction size generalizing o1 o2 with
  | zero => rfl
  | succ s ih =>
    have h0 : m1 o1 = m2 o2 := by simpa using h 0 (Nat.succ_pos s)
    have hrest : ∀ i, i < s → m1 (o1 + 1 + i) = m2 (o2 + 1 + i) := by
      intro i hi
      have := h (i + 1) (by omega)
      simpa [Nat.add_assoc, Nat.add_comm 1 i] using this
    simp [getBits, h0, ih hrest]

/-- The byte size of a delta list depends only on the start's bit offset
within its byte and the list's bit size. -/
theorem byteSize_congr {l1 l2 : DeltaList} (h8 : l1.start % 8 = l2.start % 8)
    (hsz : l1.size = l2.size) :
    getDeltaListByteSize l1 = getDeltaListByteSize l2 := by
  unfold getDeltaListByteSize
  rw [h8, hsz]

/-- The divide-and-conquer invariant of `rebalance_delta_zone`: when the
old byte windows of lists `first..last` are in order and pairwise
disjoint, the new offsets keep each list's bit offset within its byte,
and the new byte windows are in order and pairwise disjoint, then the
rebalance (1) sets each list's start to its new offset, (2) leaves all
other lists unchanged, (3) leaves the memory outside the new byte
windows unchanged, and (4) fills each list's new byte window with the
bytes of its old byte window. -/
theorem rebalance_spec (newOffs : Nat → Nat) (ls : Nat → DeltaList) (m : Mem)
    (first last : Nat) (hfl : first ≤ last)
    (hres : ∀ i, first ≤ i → i ≤ last → newOffs i % 8 = (ls i).start % 8)
    (hold : ∀ i, first ≤ i → i < last →
      (ls i).start / 8 + getDeltaListByteSize (ls i) ≤ (ls (i + 1)).start / 8)
    (hnew : ∀ i, first ≤ i → i < last →
      newOffs i / 8 + getDeltaListByteSize (ls i) ≤ newOffs (i + 1) / 8) :
    (∀ i, first ≤ i → i ≤ last →
      (rebalanceDeltaZone newOffs (ls, m) first last).1 i =
        { ls i with start := newOffs i }) ∧
    (∀ i, ¬(first ≤ i ∧ i ≤ last) →
      (rebalanceDeltaZone newOffs (ls, m) first last).1 i = ls i) ∧
    (∀ x, (∀ i, first ≤ i → i ≤ last →
        x < newOffs i / 8 * 8 ∨
          (newOffs i / 8 + getDeltaListByteSize (ls i)) * 8 ≤ x) →
      (rebalanceDeltaZone newOffs (ls, m) first last).2 x = m x) ∧
    (∀ i, first ≤ i → i ≤ last → ∀ j, j < getDeltaListByteSize (ls i) * 8 →
      (rebalanceDeltaZone newOffs (ls, m) first last).2 (newOffs i / 8 * 8 + j) =
        m ((ls i).start / 8 * 8 + j)) := by
  by_cases hble : last ≤ first
  · have hunf : rebalanceDeltaZone newOffs (ls, m) first last =
        rebalanceMoveOne newOffs first (ls, m) := by
      conv_lhs => rw [rebalanceDeltaZone.eq_def]
      rw [if_pos hble]
    rw [hunf]
    by_cases hmv : (ls first).start = newOffs first
    · have hone : rebalanceMoveOne newOffs first (ls, m) = (ls, m) := by
        unfold rebalanceMoveOne
        rw [if_pos hmv]
      rw [hone]
      refine ⟨?_, ?_, ?_, ?_⟩
      · intro i h1 h2
        have hi : i = first := by omega
        rw [hi, ← hmv]
      · intro i _
        rfl
      · intro x _
        rfl
      · intro i h1 h2 j hj
        have hi : i = first := by omega
        rw [hi, ← hmv]
    · have hone : rebalanceMoveOne newOffs first (ls, m) =
          (updateList ls first { ls first with start := newOffs first },
            moveBits m (getDeltaListByteStart (ls first) * 8)
              (getDeltaListByteStart { ls first with start := newOffs first } * 8)
              (getDeltaListByteSize { ls first with start := newOffs first } * 8)) := by
        unfold rebalanceMoveOne
        rw [if_neg hmv]
      have hbsz : getDeltaListByteSize { ls first with start := newOffs first } =
          getDeltaListByteSize (ls first) :=
        byteSize_congr (hres first (Nat.le_refl _) hfl) rfl
      rw [hone]
      refine ⟨?_, ?_, ?_, ?_⟩
      · intro i h1 h2
        have hi : i = first := by omega
        rw [hi]
        exact updateList_same ls first _
      · intro i hni
        exact updateList_other ls first i _ (by omega)
      · intro x hx
        have hx1 := hx first (Nat.le_refl _) hfl
        show moveBits m _ _ _ x = m x
        apply moveBits_out
        rcases hx1 with h | h
        · left
          exact h
        · right
          rw [hbsz]
          show newOffs first / 8 * 8 + getDeltaListByteSize (ls first) * 8 ≤ x
          omega
      · intro i h1 h2 j hj
        have hi : i = first := by omega
        rw [hi] at hj ⊢
        exact moveBits_in (by rw [hbsz]; exact hj)
  · have hlt : first < last := Nat.lt_of_not_le hble
    by_cases hdir : (ls ((first + last) / 2)).start < newOffs ((first + last) / 2)
    · have hunf : rebalanceDeltaZone newOffs (ls, m) first last =
          rebalanceDeltaZone newOffs
            (rebalanceDeltaZone newOffs (ls, m) ((first + last) / 2 + 1) last) first
            ((first + last) / 2) := by
        conv_lhs => rw [rebalanceDeltaZone.eq_def]
        rw [if_neg hble, if_pos hdir]
      rw [hunf]
      obtain ⟨ih1a, ih1b, ih1c, ih1d⟩ :=
        rebalance_spec newOffs ls m ((first + last) / 2 + 1) last (by omega)
          (fun i h1 h2 => hres i (by omega) h2)
          (fun i h1 h2 => hold i (by omega) h2)
          (fun i h1 h2 => hnew i (by omega) h2)
      set st1 := rebalanceDeltaZone newOffs (ls, m) ((first + last) / 2 + 1) last
        with hst1
      have hls : ∀ i, i ≤ (first + last) / 2 → st1.1 i = ls i :=
        fun i hi => ih1b i (by omega)
      obtain ⟨ih2a, ih2b, ih2c, ih2d⟩ :=
        rebalance_spec newOffs st1.1 st1.2 first ((first + last) / 2) (by omega)
          (fun i h1 h2 => by rw [hls i h2]; exact hres i h1 (by omega))
          (fun i h1 h2 => by
            rw [hls i (by omega), hls (i + 1) (by omega)]
            exact hold i h1 (by omega))
          (fun i h1 h2 => by
            rw [hls i (by omega)]
            exact hnew i h1 (by omega))
      refine ⟨?_, ?_, ?_, ?_⟩
      · intro i h1 h2
        by_cases hi : i ≤ (first + last) / 2
        · have h := ih2a i h1 hi
          rw [hls i hi] at h
          exact h
        · have h := ih2b i (by omega)
          rw [ih1a i (by omega) h2] at h
          exact h
      · intro i hni
        have h := ih2b i (by omega)
        rw [ih1b i (by omega)] at h
        exact h
      · intro x hx
        have h2 := ih2c x (fun i h1 h2 => by
          rw [hls i h2]
          exact hx i h1 (by omega))
        have h1 := ih1c x (fun i hi1 hi2 => hx i (by omega) hi2)
        exact h2.trans h1
      · intro i h1 h2 j hj
        by_cases hi : i ≤ (first + last) / 2
        · have hbj : j < getDeltaListByteSize (st1.1 i) * 8 := by
            rw [hls i hi]
            exact hj
          have h4 := ih2d i h1 hi j hbj
          rw [hls i hi] at h4
          have hguard : ∀ k, (first + last) / 2 + 1 ≤ k → k ≤ last →
              (ls i).start / 8 * 8 + j < newOffs k / 8 * 8 ∨
                (newOffs k / 8 + getDeltaListByteSize (ls k)) * 8 ≤
                  (ls i).start / 8 * 8 + j := by
            intro k hk1 hk2
            left
            have hA : (ls i).start / 8 + getDeltaListByteSize (ls i) ≤
                (ls ((first + last) / 2)).start / 8 +
                  getDeltaListByteSize (ls ((first + last) / 2)) :=
              addChain_le (fun t => (ls t).start / 8)
                (fun t => getDeltaListByteSize (ls t)) first ((first + last) / 2)
                (fun t ht1 ht2 => hold t ht1 (by omega)) i ((first + last) / 2)
                h1 hi (Nat.le_refl _)
            have hB : (ls ((first + last) / 2)).start / 8 + 1 ≤
                newOffs ((first + last) / 2) / 8 := by
              have h8 := hres ((first + last) / 2) (by omega) (by omega)
              omega
            have hC := hnew ((first + last) / 2) (by omega) (by omega)
            have hD : newOffs ((first + last) / 2 + 1) / 8 ≤ newOffs k / 8 :=
              addChain_mono (fun t => newOffs t / 8)
                (fun t => getDeltaListByteSize (ls t)) ((first + last) / 2 + 1)
                last (fun t ht1 ht2 => hnew t (by omega) ht2)
                ((first + last) / 2 + 1) k (Nat.le_refl _) hk1 hk2
            omega
          have h5 := ih1c ((ls i).start / 8 * 8 + j) hguard
          rw [h5] at h4
          exact h4
        · have hguard2 : ∀ k, first ≤ k → k ≤ (first + last) / 2 →
              newOffs i / 8 * 8 + j < newOffs k / 8 * 8 ∨
                (newOffs k / 8 + getDeltaListByteSize (st1.1 k)) * 8 ≤
                  newOffs i / 8 * 8 + j := by
            intro k hk1 hk2
            right
            rw [hls k hk2]
            have hA : newOffs k / 8 + getDeltaListByteSize (ls k) ≤
                newOffs ((first + last) / 2) / 8 +
                  getDeltaListByteSize (ls ((first + last) / 2)) :=
              addChain_le (fun t => newOffs t / 8)
                (fun t => getDeltaListByteSize (ls t)) first ((first + last) / 2)
                (fun t ht1 ht2 => hnew t ht1 (by omega)) k ((first + last) / 2)
                hk1 hk2 (Nat.le_refl _)
            have hC := hnew ((first + last) / 2) (by omega) (by omega)
            have hD : newOffs ((first + last) / 2 + 1) / 8 ≤ newOffs i / 8 :=
              addChain_mono (fun t => newOffs t / 8)
                (fun t => getDeltaListByteSize (ls t)) ((first + last) / 2 + 1)
                last (fun t ht1 ht2 => hnew t (by omega) ht2)
                ((first + last) / 2 + 1) i (Nat.le_refl _) (by omega) h2
            omega
          have h3 := ih2c (newOffs i / 8 * 8 + j) hguard2
          have h4 := ih1d i (by omega) h2 j hj
          exact h3.trans h4
    · have hunf : rebalanceDeltaZone newOffs (ls, m) first last =
          rebalanceDeltaZone newOffs
            (rebalanceDeltaZone newOffs (ls, m) first ((first + last) / 2))
            ((first + last) / 2 + 1) last := by
        conv_lhs => rw [rebalanceDeltaZone.eq_def]
        rw [if_neg hble, if_neg hdir]
      rw [hunf]
      obtain ⟨ih1a, ih1b, ih1c, ih1d⟩ :=
        rebalance_spec newOffs ls m first ((first + last) / 2) (by omega)
          (fun i h1 h2 => hres i h1 (by omega))
          (fun i h1 h2 => hold i h1 (by omega))
          (fun i h1 h2 => hnew i h1 (by omega))
      set st1 := rebalanceDeltaZone newOffs (ls, m) first ((first + last) / 2)
        with hst1
      have hls : ∀ i, (first + last) / 2 < i → st1.1 i = ls i :=
        fun i hi => ih1b i (by omega)
      obtain ⟨ih2a, ih2b, ih2c, ih2d⟩ :=
        rebalance_spec newOffs st1.1 st1.2 ((first + last) / 2 + 1) last (by omega)
          (fun i h1 h2 => by rw [hls i (by omega)]; exact hres i (by omega) h2)
          (fun i h1 h2 => by
            rw [hls i (by omega), hls (i + 1) (by omega)]
            exact hold i (by omega) h2)
          (fun i h1 h2 => by
            rw [hls i (by omega)]
            exact hnew i (by omega) h2)
      refine ⟨?_, ?_, ?_, ?_⟩
      · intro i h1 h2
        by_cases hi : i ≤ (first + last) / 2
        · have h := ih2b i (by omega)
          rw [ih1a i h1 hi] at h
          exact h
        · have h := ih2a i (by omega) h2
          rw [hls i (by omega)] at h
          exact h
      · intro i hni
        have h := ih2b i (by omega)
        rw [ih1b i (by omega)] at h
        exact h
      · intro x hx
        have h2 := ih2c x (fun i h1 h2 => by
          rw [hls i (by omega)]
          exact hx i (by omega) h2)
        have h1 := ih1c x (fun i hi1 hi2 => hx i hi1 (by omega))
        exact h2.trans h1
      · intro i h1 h2 j hj
        by_cases hi : i ≤ (first + last) / 2
        · have h4 := ih1d i h1 hi j hj
          have hguard : ∀ k, (first + last) / 2 + 1 ≤ k → k ≤ last →
              newOffs i / 8 * 8 + j < newOffs k / 8 * 8 ∨
                (newOffs k / 8 + getDeltaListByteSize (st1.1 k)) * 8 ≤
                  newOffs i / 8 * 8 + j := by
            intro k hk1 hk2
            left
            have hA : newOffs i / 8 + getDeltaListByteSize (ls i) ≤
                newOffs ((first + last) / 2) / 8 +
                  getDeltaListByteSize (ls ((first + last) / 2)) :=
              addChain_le (fun t => newOffs t / 8)
                (fun t => getDeltaListByteSize (ls t)) first ((first + last) / 2)
                (fun t ht1 ht2 => hnew t ht1 (by omega)) i ((first + last) / 2)
                h1 hi (Nat.le_refl _)
            have hC := hnew ((first + last) / 2) (by omega) (by omega)
            have hD : newOffs ((first + last) / 2 + 1) / 8 ≤ newOffs k / 8 :=
              addChain_mono (fun t => newOffs t / 8)
                (fun t => getDeltaListByteSize (ls t)) ((first + last) / 2 + 1)
                last (fun t ht1 ht2 => hnew t (by omega) ht2)
                ((first + last) / 2 + 1) k (Nat.le_refl _) hk1 hk2
            omega
          have h3 := ih2c (newOffs i / 8 * 8 + j) hguard
          exact h3.trans h4
        · have hbj : j < getDeltaListByteSize (st1.1 i) * 8 := by
            rw [hls i (by omega)]
            exact hj
          have h4 := ih2d i (by omega) h2 j hbj
          rw [hls i (by omega)] at h4
          have hguard : ∀ k, first ≤ k → k ≤ (first + last) / 2 →
              (ls i).start / 8 * 8 + j < newOffs k / 8 * 8 ∨
                (newOffs k / 8 + getDeltaListByteSize (ls k)) * 8 ≤
                  (ls i).start / 8 * 8 + j := by
            intro k hk1 hk2
            right
            have hA : newOffs k / 8 + getDeltaListByteSize (ls k) ≤
                newOffs ((first + last) / 2) / 8 +
                  getDeltaListByteSize (ls ((first + last) / 2)) :=
              addChain_le (fun t => newOffs t / 8)
                (fun t => getDeltaListByteSize (ls t)) first ((first + last) / 2)
                (fun t ht1 ht2 => hnew t ht1 (by omega)) k ((first + last) / 2)
                hk1 hk2 (Nat.le_refl _)
            have hdn : newOffs ((first + last) / 2) ≤
                (ls ((first + last) / 2)).start := by omega
            have hB2 := hold ((first + last) / 2) (by omega) (by omega)
            have hD2 : (ls ((first + last) / 2 + 1)).start / 8 ≤ (ls i).start / 8 :=
              addChain_mono (fun t => (ls t).start / 8)
                (fun t => getDeltaListByteSize (ls t)) ((first + last) / 2 + 1)
                last (fun t ht1 ht2 => hold t (by omega) ht2)
                ((first + last) / 2 + 1) i (Nat.le_refl _) (by omega) h2
            omega
          have h5 := ih1c ((ls i).start / 8 * 8 + j) hguard
          rw [h5] at h4
          exact h4
  termination_by last - first
  decreasing_by all_goals omega

/-- The byte-offset recursion of `compute_new_list_offsets` stays within
the accounted space: each offset is bounded by the byte sizes of the
preceding lists plus the inter-list spacing and the growing gap. -/
theorem newByteOffset_le (z : DeltaZone) (gi g s : Nat) :
    ∀ i, 1 ≤ i →
      newByteOffset z gi g s i + s / 2 ≤
        sumTo (fun k => getDeltaListByteSize (z.lists k)) i + i * s +
          (if gi ≤ i then g else 0) := by
  intro i hi
  induction i, hi using Nat.le_induction with
  | base =>
    rw [show (1 : Nat) = 0 + 1 from rfl]
    show newByteOffset z gi g s 0 + getDeltaListByteSize (z.lists 0) + s -
        (if (0 : Nat) = 0 then s / 2 else 0) +
        (if 0 + 1 = gi then g else 0) + s / 2 ≤ _
    rw [show newByteOffset z gi g s 0 = 0 from rfl, if_pos rfl]
    show _ ≤ 0 + getDeltaListByteSize (z.lists 0) + (0 + 1) * s +
      (if gi ≤ 0 + 1 then g else 0)
    rw [Nat.one_mul]
    split_ifs <;> omega
  | succ i hi ih =>
    have hstep : newByteOffset z gi g s (i + 1) =
        newByteOffset z gi g s i + getDeltaListByteSize (z.lists i) + s -
          (if i = 0 then s / 2 else 0) + (if i + 1 = gi then g else 0) := rfl
    have hsum : sumTo (fun k => getDeltaListByteSize (z.lists k)) (i + 1) =
        sumTo (fun k => getDeltaListByteSize (z.lists k)) i +
          getDeltaListByteSize (z.lists i) := rfl
    rw [hstep, hsum, if_neg (show ¬ i = 0 by omega), Nat.succ_mul]
    split_ifs at ih ⊢ <;> omega

theorem computeNewListOffsets_ne_tail (z : DeltaZone) (gi g us i : Nat)
    (hi : i ≠ z.listCount + 1) :
    computeNewListOffsets z gi g us i =
      newByteOffset z gi g ((z.size - us) / z.listCount) i * 8 +
        (z.lists i).start % 8 := by
  simp only [computeNewListOffsets]
  rw [if_neg hi]

theorem computeNewListOffsets_tail (z : DeltaZone) (gi g us : Nat) :
    computeNewListOffsets z gi g us (z.listCount + 1) =
      z.size * 8 - (z.lists (z.listCount + 1)).size := by
  simp only [computeNewListOffsets, if_true]

/-- C4: rebalancing a delta zone (`extend_delta_zone` computing new
offsets with `compute_new_list_offsets` and relocating lists with
`rebalance_delta_zone`) succeeds whenever the lists plus the growing gap
fit in the zone, and preserves, for every delta list: the list's bit
size, saved position, byte size, the bytes of its bit stream (the
content of its covering byte window, hence every bit and every field
read within the list), and the inter-list ordering and disjointness of
the list start offsets; only the per-list start offsets change, and the
zone's record count is unchanged. The hypotheses state the zone
invariants: at least one real list, old byte windows in increasing
disjoint order, and the tail guard list pinned at the end of the zone
memory. -/
theorem C4_rebalance_preservation (z : DeltaZone) (gi gsz : Nat)
    (hcount : 1 ≤ z.listCount)
    (hord : ∀ i < z.listCount + 1, 1 ≤ i →
      (z.lists i).start / 8 + getDeltaListByteSize (z.lists i) ≤
        (z.lists (i + 1)).start / 8)
    (htail : (z.lists (z.listCount + 1)).start =
      z.size * 8 - (z.lists (z.listCount + 1)).size)
    (htsz : (z.lists (z.listCount + 1)).size ≤ z.size * 8)
    (hus : gsz + usedSpaceSum z ≤ z.size) :
    (extendDeltaZone z gi gsz).1 = Status.success ∧
    (extendDeltaZone z gi gsz).2.lists 0 = z.lists 0 ∧
    (∀ i, 1 ≤ i → i ≤ z.listCount + 1 →
      ((extendDeltaZone z gi gsz).2.lists i).size = (z.lists i).size ∧
      ((extendDeltaZone z gi gsz).2.lists i).saveKey = (z.lists i).saveKey ∧
      ((extendDeltaZone z gi gsz).2.lists i).saveOffset =
        (z.lists i).saveOffset ∧
      getDeltaListByteSize ((extendDeltaZone z gi gsz).2.lists i) =
        getDeltaListByteSize (z.lists i)) ∧
    (∀ i, 1 ≤ i → i ≤ z.listCount →
      ((extendDeltaZone z gi gsz).2.lists i).start ≤
        ((extendDeltaZone z gi gsz).2.lists (i + 1)).start) ∧
    (∀ i, 1 ≤ i → i ≤ z.listCount →
      ((extendDeltaZone z gi gsz).2.lists i).start / 8 +
          getDeltaListByteSize ((extendDeltaZone z gi gsz).2.lists i) ≤
        ((extendDeltaZone z gi gsz).2.lists (i + 1)).start / 8) ∧
    (∀ i, 1 ≤ i → i ≤ z.listCount + 1 →
      ∀ j, j < getDeltaListByteSize (z.lists i) * 8 →
      (extendDeltaZone z gi gsz).2.memory
          (((extendDeltaZone z gi gsz).2.lists i).start / 8 * 8 + j) =
        z.memory ((z.lists i).start / 8 * 8 + j)) ∧
    (∀ i, 1 ≤ i → i ≤ z.listCount + 1 → ∀ j, j < (z.lists i).size →
      (extendDeltaZone z gi gsz).2.memory
          (((extendDeltaZone z gi gsz).2.lists i).start + j) =
        z.memory ((z.lists i).start + j)) ∧
    (∀ i, 1 ≤ i → i ≤ z.listCount + 1 → ∀ off sz, off + sz ≤ (z.lists i).size →
      getBits (extendDeltaZone z gi gsz).2.memory
          (((extendDeltaZone z gi gsz).2.lists i).start + off) sz =
        getBits z.memory ((z.lists i).start + off) sz) ∧
    (extendDeltaZone z gi gsz).2.recordCount = z.recordCount := by
  have hnotlt : ¬ z.size < gsz + usedSpaceSum z := by omega
  have hunf : extendDeltaZone z gi gsz =
      (Status.success,
        { z with
          lists := (rebalanceDeltaZone
            (computeNewListOffsets z gi gsz (gsz + usedSpaceSum z))
            (z.lists, z.memory) 1 (z.listCount + 1)).1,
          memory := (rebalanceDeltaZone
            (computeNewListOffsets z gi gsz (gsz + usedSpaceSum z))
            (z.lists, z.memory) 1 (z.listCount + 1)).2,
          rebalanceCount := z.rebalanceCount + 1 }) := by
    simp only [extendDeltaZone]
    rw [if_neg hnotlt]
  rw [hunf]
  set nOf := computeNewListOffsets z gi gsz (gsz + usedSpaceSum z)
  set sp := (z.size - (gsz + usedSpaceSum z)) / z.listCount
  have hno : ∀ i, i ≤ z.listCount →
      nOf i = newByteOffset z gi gsz sp i * 8 + (z.lists i).start % 8 :=
    fun i hi => computeNewListOffsets_ne_tail z gi gsz _ i (by omega)
  have hnt : nOf (z.listCount + 1) =
      z.size * 8 - (z.lists (z.listCount + 1)).size :=
    computeNewListOffsets_tail z gi gsz _
  have hnt2 : nOf (z.listCount + 1) = (z.lists (z.listCount + 1)).start := by
    rw [hnt, ← htail]
  have hmul : z.listCount * sp ≤ z.size - (gsz + usedSpaceSum z) := by
    rw [Nat.mul_comm]
    exact Nat.div_mul_le_self _ _
  clear_value nOf sp
  have hnb : ∀ i, i ≤ z.listCount → nOf i / 8 = newByteOffset z gi gsz sp i := by
    intro i hi
    rw [hno i hi]
    omega
  have hres3 : ∀ i, 1 ≤ i → i ≤ z.listCount + 1 →
      nOf i % 8 = (z.lists i).start % 8 := by
    intro i h1 h2
    by_cases hi : i ≤ z.listCount
    · rw [hno i hi]
      omega
    · have hieq : i = z.listCount + 1 := by omega
      rw [hieq, hnt2]
  have hold3 : ∀ i, 1 ≤ i → i < z.listCount + 1 →
      (z.lists i).start / 8 + getDeltaListByteSize (z.lists i) ≤
        (z.lists (i + 1)).start / 8 :=
    fun i h1 h2 => hord i h2 h1
  have hnew3 : ∀ i, 1 ≤ i → i < z.listCount + 1 →
      nOf i / 8 + getDeltaListByteSize (z.lists i) ≤ nOf (i + 1) / 8 := by
    intro i h1 h2
    rw [hnb i (by omega)]
    by_cases hic : i < z.listCount
    · rw [hnb (i + 1) (by omega)]
      have hstep : newByteOffset z gi gsz sp (i + 1) =
          newByteOffset z gi gsz sp i + getDeltaListByteSize (z.lists i) + sp -
            (if i = 0 then sp / 2 else 0) +
            (if i + 1 = gi then gsz else 0) := rfl
      rw [hstep, if_neg (show ¬ i = 0 by omega)]
      split_ifs <;> omega
    · have hieq : i = z.listCount := by omega
      rw [hieq, hnt]
      have hb := newByteOffset_le z gi gsz sp z.listCount hcount
      have hsum2 : usedSpaceSum z =
          sumTo (fun k => getDeltaListByteSize (z.lists k)) z.listCount +
            getDeltaListByteSize (z.lists z.listCount) +
            getDeltaListByteSize (z.lists (z.listCount + 1)) := by
        rw [usedSpaceSum_eq]
        rfl
      have hP : (z.size * 8 - (z.lists (z.listCount + 1)).size) / 8 +
          getDeltaListByteSize (z.lists (z.listCount + 1)) = z.size := by
        unfold getDeltaListByteSize
        rw [htail]
        omega
      split_ifs at hb <;> omega
  obtain ⟨r1, r2, r3, r4⟩ :=
    rebalance_spec nOf z.lists z.memory 1 (z.listCount + 1) (by omega)
      hres3 hold3 hnew3
  set strb := rebalanceDeltaZone nOf (z.lists, z.memory) 1 (z.listCount + 1)
    with hstrb
  have hbszeq : ∀ i, 1 ≤ i → i ≤ z.listCount + 1 →
      getDeltaListByteSize (strb.1 i) = getDeltaListByteSize (z.lists i) := by
    intro i h1 h2
    rw [r1 i h1 h2]
    exact byteSize_congr (hres3 i h1 h2) rfl
  have hbit : ∀ i, 1 ≤ i → i ≤ z.listCount + 1 → ∀ j, j < (z.lists i).size →
      strb.2 ((strb.1 i).start + j) = z.memory ((z.lists i).start + j) := by
    intro i h1 h2 j hj
    rw [r1 i h1 h2]
    show strb.2 (nOf i + j) = _
    have hr8 := hres3 i h1 h2
    have hbdef : getDeltaListByteSize (z.lists i) =
        ((z.lists i).start % 8 + (z.lists i).size + 7) / 8 := rfl
    rw [show nOf i + j = nOf i / 8 * 8 + ((z.lists i).start % 8 + j) by omega]
    have h4 := r4 i h1 h2 ((z.lists i).start % 8 + j) (by omega)
    rw [show (z.lists i).start / 8 * 8 + ((z.lists i).start % 8 + j) =
      (z.lists i).start + j by omega] at h4
    exact h4
  refine ⟨rfl, ?_, ?_, ?_, ?_, ?_, ?_, ?_, rfl⟩
  · exact r2 0 (by omega)
  · intro i h1 h2
    have h := r1 i h1 h2
    refine ⟨?_, ?_, ?_, ?_⟩
    · show (strb.1 i).size = (z.lists i).size
      rw [h]
    · show (strb.1 i).saveKey = (z.lists i).saveKey
      rw [h]
    · show (strb.1 i).saveOffset = (z.lists i).saveOffset
      rw [h]
    · exact hbszeq i h1 h2
  · intro i h1 h2
    show (strb.1 i).start ≤ (strb.1 (i + 1)).start
    have e1 : (strb.1 i).start = nOf i := by rw [r1 i h1 (by omega)]
    have e2 : (strb.1 (i + 1)).start = nOf (i + 1) := by
      rw [r1 (i + 1) (by omega) (by omega)]
    rw [e1, e2]
    have h3 := hnew3 i h1 (by omega)
    have h8a := hres3 i h1 (by omega)
    have h8b := hres3 (i + 1) (by omega) (by omega)
    have hbdef : getDeltaListByteSize (z.lists i) =
        ((z.lists i).start % 8 + (z.lists i).size + 7) / 8 := rfl
    omega
  · intro i h1 h2
    show (strb.1 i).start / 8 + getDeltaListByteSize (strb.1 i) ≤
      (strb.1 (i + 1)).start / 8
    rw [hbszeq i h1 (by omega), r1 i h1 (by omega),
      r1 (i + 1) (by omega) (by omega)]
    exact hnew3 i h1 (by omega)
  · intro i h1 h2 j hj
    show strb.2 ((strb.1 i).start / 8 * 8 + j) = _
    rw [r1 i h1 h2]
    exact r4 i h1 h2 j hj
  · intro i h1 h2 j hj
    exact hbit i h1 h2 j hj
  · intro i h1 h2 off sz hsz
    show getBits strb.2 ((strb.1 i).start + off) sz =
      getBits z.memory ((z.lists i).start + off) sz
    apply getBits_congr2
    intro t ht
    rw [Nat.add_assoc, Nat.add_assoc]
    exact hbit i h1 h2 (off + t) (by omega)

/-- A concrete one-list zone used to exercise `extend_delta_zone`. -/
def c4Zone : DeltaZone := mkOneListZone ⟨10, 314, 710⟩ 8 (fun _ => false)

theorem C4_witness :
    (1 ≤ c4Zone.listCount ∧
     (∀ i < c4Zone.listCount + 1, 1 ≤ i →
       (c4Zone.lists i).start / 8 + getDeltaListByteSize (c4Zone.lists i) ≤
         (c4Zone.lists (i + 1)).start / 8) ∧
     (c4Zone.lists (c4Zone.listCount + 1)).start =
       c4Zone.size * 8 - (c4Zone.lists (c4Zone.listCount + 1)).size ∧
     (c4Zone.lists (c4Zone.listCount + 1)).size ≤ c4Zone.size * 8 ∧
     100 + usedSpaceSum c4Zone ≤ c4Zone.size) ∧
    ((extendDeltaZone c4Zone 1 100).1 = Status.success ∧
    (extendDeltaZone c4Zone 1 100).2.lists 0 = c4Zone.lists 0 ∧
    (∀ i, 1 ≤ i → i ≤ c4Zone.listCount + 1 →
      ((extendDeltaZone c4Zone 1 100).2.lists i).size = (c4Zone.lists i).size ∧
      ((extendDeltaZone c4Zone 1 100).2.lists i).saveKey =
        (c4Zone.lists i).saveKey ∧
      ((extendDeltaZone c4Zone 1 100).2.lists i).saveOffset =
        (c4Zone.lists i).saveOffset ∧
      getDeltaListByteSize ((extendDeltaZone c4Zone 1 100).2.lists i) =
        getDeltaListByteSize (c4Zone.lists i)) ∧
    (∀ i, 1 ≤ i → i ≤ c4Zone.listCount →
      ((extendDeltaZone c4Zone 1 100).2.lists i).start ≤
        ((extendDeltaZone c4Zone 1 100).2.lists (i + 1)).start) ∧
    (∀ i, 1 ≤ i → i ≤ c4Zone.listCount →
      ((extendDeltaZone c4Zone 1 100).2.lists i).start / 8 +
          getDeltaListByteSize ((extendDeltaZone c4Zone 1 100).2.lists i) ≤
        ((extendDeltaZone c4Zone 1 100).2.lists (i + 1)).start / 8) ∧
    (∀ i, 1 ≤ i → i ≤ c4Zone.listCount + 1 →
      ∀ j, j < getDeltaListByteSize (c4Zone.lists i) * 8 →
      (extendDeltaZone c4Zone 1 100).2.memory
          (((extendDeltaZone c4Zone 1 100).2.lists i).start / 8 * 8 + j) =
        c4Zone.memory ((c4Zone.lists i).start / 8 * 8 + j)) ∧
    (∀ i, 1 ≤ i → i ≤ c4Zone.listCount + 1 → ∀ j, j < (c4Zone.lists i).size →
      (extendDeltaZone c4Zone 1 100).2.memory
          (((extendDeltaZone c4Zone 1 100).2.lists i).start + j) =
        c4Zone.memory ((c4Zone.lists i).start + j)) ∧
    (∀ i, 1 ≤ i → i ≤ c4Zone.listCount + 1 →
      ∀ off sz, off + sz ≤ (c4Zone.lists i).size →
      getBits (extendDeltaZone c4Zone 1 100).2.memory
          (((extendDeltaZone c4Zone 1 100).2.lists i).start + off) sz =
        getBits c4Zone.memory ((c4Zone.lists i).start + off) sz) ∧
    (extendDeltaZone c4Zone 1 100).2.recordCount = c4Zone.recordCount) :=
  ⟨⟨by decide, by decide, by decide, by decide, by decide⟩,
    C4_rebalance_preservation c4Zone 1 100 (by decide) (by decide) (by decide)
      (by decide) (by decide)⟩

end UDS
